import Mathlib

/-!
Verification development for the opencode-mission-control engine.

The TypeScript source is shallowly embedded:
* `MC.hasCycle` embeds `MissionStore.hasCycle` (src/persistence/MissionStore.ts):
  the recursive-closure SQL query `WITH RECURSIVE ancestors(id) AS ...` is
  embedded by its least-fixpoint semantics, computed by saturation
  (`stepClosure`) over the finite edge list.
* `MC.validateNoCycle` embeds `GraphEngine.validateNoCycle`
  (src/core/GraphEngine.ts): the in-memory breadth-first traversal with a
  visited set; `true` models "throws CycleDetectedError".
* The persistence layer (`MissionStore`) and orchestrator (`MissionManager`)
  are embedded as pure state-passing functions over `StoreState`; SQLite
  transactions become rollback-on-error (`runTransaction`), and the SQLite
  composite-primary-key constraint on `dependencies` becomes an explicit
  uniqueness check raising `MCError.uniqueViolation`.
* JSON (de)serialization of task metadata is external to the repository
  (`JSON.parse` / `JSON.stringify`); it is modelled by its contract: a
  stored metadata column holds either a faithful encoding of a mapping
  (`MetaVal.enc`) or a blob that fails to parse (`MetaVal.corrupt`).
  Metadata values are modelled as strings (opaque JSON-compatible values).
-/

namespace MC

/-- Dependency edges as `(blocker_id, blocked_id)` pairs, in insertion order. -/
abbrev EdgeList := List (String × String)

/-- `Edge edges a b` holds when the edge `a → b` (a blocks b) is present. -/
def Edge (edges : EdgeList) (a b : String) : Prop := (a, b) ∈ edges

instance (edges : EdgeList) (a b : String) : Decidable (Edge edges a b) := by
  unfold Edge; infer_instance

/-- Direct blockers of `t`: embeds
`SELECT blocker_id FROM dependencies WHERE blocked_id = t`. -/
def blockersOf (edges : EdgeList) (t : String) : List String :=
  (edges.filter (fun e => e.2 == t)).map (fun e => e.1)

theorem mem_blockersOf {edges : EdgeList} {t x : String} :
    x ∈ blockersOf edges t ↔ (x, t) ∈ edges := by
  unfold blockersOf
  constructor
  · intro h
    simp only [List.mem_map, List.mem_filter, beq_iff_eq] at h
    obtain ⟨e, ⟨hmem, h2⟩, h1⟩ := h
    cases e
    simp_all
  · intro h
    simp only [List.mem_map, List.mem_filter, beq_iff_eq]
    exact ⟨(x, t), ⟨h, rfl⟩, rfl⟩

/-- `x` is a transitive blocker (ancestor) of `y`: a path `x → … → y`
of at least one dependency edge. -/
def IsAncestor (edges : EdgeList) (x y : String) : Prop :=
  Relation.TransGen (Edge edges) x y

/-- The dependency relation has no directed cycle (self-loops included). -/
def Acyclic (edges : EdgeList) : Prop := ∀ x, ¬ IsAncestor edges x x

/-- One saturation pass of the recursive CTE: repeatedly add blockers of
already-found ancestors until a fixpoint. `fuel` bounds the number of
passes; `edges.length + 1` passes always suffice. -/
def stepClosure (edges : EdgeList) : Nat → List String → List String
  | 0, acc => acc
  | n + 1, acc =>
    let fresh := ((acc.flatMap (fun v => blockersOf edges v)).filter
      (fun x => !acc.contains x)).dedup
    if fresh.isEmpty then acc else stepClosure edges n (acc ++ fresh)

/-- The set computed by the recursive CTE `ancestors(id)` for start task `t`:
all transitive blockers of `t`. -/
def ancestorsList (edges : EdgeList) (t : String) : List String :=
  stepClosure edges (edges.length + 1) (blockersOf edges t).dedup

/-- Embeds `MissionStore.hasCycle(blockerId, blockedId)`: equality short-circuit,
then membership of `blockedId` in the recursively computed ancestor set of
`blockerId`. -/
def hasCycle (edges : EdgeList) (blockerId blockedId : String) : Bool :=
  blockerId == blockedId || (ancestorsList edges blockerId).contains blockedId

/-- Embeds the BFS loop of `GraphEngine.validateNoCycle`: dequeue, skip if
visited, throw if the target occurs among the current node's blockers,
otherwise enqueue the unvisited blockers. `true` models a thrown
`CycleDetectedError`. -/
def bfsDetect (edges : EdgeList) (blockedId : String) :
    Nat → List String → List String → Bool
  | 0, _, _ => false
  | _ + 1, _, [] => false
  | fuel + 1, visited, current :: rest =>
    if visited.contains current then bfsDetect edges blockedId fuel visited rest
    else
      let visited2 := current :: visited
      let parents := blockersOf edges current
      if parents.contains blockedId then true
      else bfsDetect edges blockedId fuel visited2
        (rest ++ parents.filter (fun p => !visited2.contains p))

/-- Fuel that always suffices for the BFS (it visits each node at most once
and enqueues at most one entry per edge). -/
def bfsFuel (edges : EdgeList) : Nat := (edges.length + 2) * (edges.length + 2)

/-- Embeds `GraphEngine.validateNoCycle(getDependencies, blockerId, blockedId)`
applied to the direct-blocker lookup of `edges`; `true` models "throws
`CycleDetectedError`". -/
def validateNoCycle (edges : EdgeList) (blockerId blockedId : String) : Bool :=
  blockerId == blockedId ||
    bfsDetect edges blockedId (bfsFuel edges) [] [blockerId]

/-- Executable acyclicity check: no blocker is its own transitive blocker. -/
def acyclicCheck (edges : EdgeList) : Bool :=
  (edges.map Prod.fst).all (fun x => !(ancestorsList edges x).contains x)

theorem stepClosure_subset {edges : EdgeList} :
    ∀ (n : Nat) (acc : List String), acc ⊆ stepClosure edges n acc := by
  intro n
  induction n with
  | zero => intro acc; simp [stepClosure]
  | succ n ih =>
    intro acc
    simp only [stepClosure]
    split
    · exact fun x hx => hx
    · exact fun x hx => ih _ (List.mem_append_left _ hx)

theorem stepClosure_sound {edges : EdgeList} {t : String} :
    ∀ (n : Nat) (acc : List String),
      (∀ x ∈ acc, IsAncestor edges x t) →
      ∀ x ∈ stepClosure edges n acc, IsAncestor edges x t := by
  intro n
  induction n with
  | zero => intro acc hacc; simpa [stepClosure] using hacc
  | succ n ih =>
    intro acc hacc
    simp only [stepClosure]
    split
    · exact hacc
    · apply ih
      intro x hx
      rcases List.mem_append.mp hx with hx | hx
      · exact hacc x hx
      · have hx' := List.mem_dedup.mp hx
        have hx'' := (List.mem_filter.mp hx').1
        obtain ⟨v, hv, hxv⟩ := List.mem_flatMap.mp hx''
        exact Relation.TransGen.head (mem_blockersOf.mp hxv) (hacc v hv)

/-- The output of a sufficiently fuelled saturation is closed under taking
blockers. -/
theorem stepClosure_closed {edges : EdgeList} :
    ∀ (n : Nat) (acc : List String),
      acc.Nodup → (∀ x ∈ acc, x ∈ edges.map Prod.fst) →
      edges.length + 1 ≤ n + acc.length →
      ∀ v ∈ stepClosure edges n acc, ∀ p ∈ blockersOf edges v,
        p ∈ stepClosure edges n acc := by
  intro n
  induction n with
  | zero =>
    intro acc hnd hsub hlen
    exfalso
    have h1 : acc.length ≤ (edges.map Prod.fst).length :=
      (hnd.subperm hsub).length_le
    simp only [List.length_map] at h1
    omega
  | succ n ih =>
    intro acc hnd hsub hlen
    simp only [stepClosure]
    split
    next h =>
      intro v hv p hp
      have hempty : ((acc.flatMap (fun v => blockersOf edges v)).filter
          (fun x => !acc.contains x)) = [] := by
        have := List.isEmpty_iff.mp h
        rwa [List.dedup_eq_nil] at this
      have hall := List.filter_eq_nil_iff.mp hempty
      have hpmem : p ∈ acc.flatMap (fun v => blockersOf edges v) :=
        List.mem_flatMap.mpr ⟨v, hv, hp⟩
      have hpc := hall p hpmem
      simp only [Bool.not_eq_true'] at hpc
      have hct : acc.contains p = true := by
        cases hc : acc.contains p with
        | true => rfl
        | false => exact absurd hc hpc
      exact List.elem_iff.mp hct
    next h =>
      apply ih
      · refine List.Nodup.append hnd (List.nodup_dedup _) ?_
        intro x hx hxf
        have hfx := (List.mem_filter.mp (List.mem_dedup.mp hxf)).2
        simp only [Bool.not_eq_true'] at hfx
        simp [hx] at hfx
      · intro x hx
        rcases List.mem_append.mp hx with hx | hx
        · exact hsub x hx
        · have hx' := (List.mem_filter.mp (List.mem_dedup.mp hx)).1
          obtain ⟨v, _, hxv⟩ := List.mem_flatMap.mp hx'
          have : (x, v) ∈ edges := mem_blockersOf.mp hxv
          exact List.mem_map.mpr ⟨(x, v), this, rfl⟩
      · have hne : (((acc.flatMap (fun v => blockersOf edges v)).filter
            (fun x => !acc.contains x)).dedup) ≠ [] := by
          intro hc
          rw [hc] at h
          simp at h
        have hpos := List.length_pos.mpr hne
        rw [List.length_append]
        omega

theorem mem_ancestorsList {edges : EdgeList} {t x : String} :
    x ∈ ancestorsList edges t ↔ IsAncestor edges x t := by
  constructor
  · intro h
    refine stepClosure_sound _ _ ?_ x h
    intro y hy
    exact Relation.TransGen.single (mem_blockersOf.mp (List.mem_dedup.mp hy))
  · intro h
    unfold ancestorsList
    have hclosed := @stepClosure_closed edges (edges.length + 1)
      (blockersOf edges t).dedup (List.nodup_dedup _)
      (by
        intro y hy
        have : (y, t) ∈ edges := mem_blockersOf.mp (List.mem_dedup.mp hy)
        exact List.mem_map.mpr ⟨(y, t), this, rfl⟩)
      (by omega)
    induction h using Relation.TransGen.head_induction_on with
    | base hxt =>
      exact stepClosure_subset _ _ (List.mem_dedup.mpr (mem_blockersOf.mpr hxt))
    | ih hxy _ ihy =>
      exact hclosed _ ihy _ (mem_blockersOf.mpr hxy)

theorem hasCycle_iff {edges : EdgeList} {b k : String} :
    hasCycle edges b k = true ↔ (b = k ∨ IsAncestor edges k b) := by
  unfold hasCycle
  rw [Bool.or_eq_true, beq_iff_eq, List.elem_iff, mem_ancestorsList]

theorem acyclicCheck_iff {edges : EdgeList} :
    acyclicCheck edges = true ↔ Acyclic edges := by
  unfold acyclicCheck Acyclic
  rw [List.all_eq_true]
  constructor
  · intro h x hx
    obtain ⟨y, hy, -⟩ := (Relation.TransGen.head'_iff).mp hx
    have hxfst : x ∈ edges.map Prod.fst := List.mem_map.mpr ⟨(x, y), hy, rfl⟩
    have hc := h x hxfst
    simp only [Bool.not_eq_true'] at hc
    simp [mem_ancestorsList.mpr hx] at hc
  · intro h x _
    simp only [Bool.not_eq_true']
    cases hc : (ancestorsList edges x).contains x with
    | false => rfl
    | true =>
      exact absurd (mem_ancestorsList.mp (List.elem_iff.mp hc)) (h x)

end MC

namespace MC

/-- Number of universe entries not yet visited (BFS termination measure). -/
def unvisitedCount (univ visited : List String) : Nat :=
  (univ.filter (fun x => !visited.contains x)).length

theorem unvisitedCount_lt {univ : List String} {c : String} :
    ∀ {visited : List String}, c ∈ univ → c ∉ visited →
      unvisitedCount univ (c :: visited) < unvisitedCount univ visited := by
  unfold unvisitedCount
  induction univ with
  | nil => intro visited hc _; simp at hc
  | cons u us ih =>
    intro visited hc hnv
    by_cases huc : u = c
    · subst huc
      have h1 : ((u :: visited).contains u) = true := by simp
      have h2 : (visited.contains u) = false := by
        cases h : visited.contains u with
        | false => rfl
        | true => exact absurd (List.elem_iff.mp h) hnv
      have hmono : (us.filter (fun x => !(u :: visited).contains x)).Sublist
          (us.filter (fun x => !visited.contains x)) := by
        apply List.monotone_filter_right
        intro x hx
        simp only [Bool.not_eq_true', List.contains_cons] at hx
        simp only [Bool.not_eq_true']
        cases h3 : visited.contains x with
        | false => rfl
        | true => rw [h3] at hx; simp at hx
      have hlen2 : (List.filter (fun x => !(u :: visited).contains x)
          (u :: us)).length =
          (List.filter (fun x => !(u :: visited).contains x) us).length := by
        rw [List.filter_cons, h1]
        simp
      have hlen3 : (List.filter (fun x => !visited.contains x)
          (u :: us)).length =
          (List.filter (fun x => !visited.contains x) us).length + 1 := by
        rw [List.filter_cons, h2]
        simp
      rw [hlen2, hlen3]
      have := hmono.length_le
      omega
    · have hcu : c ∈ us := by
        rcases List.mem_cons.mp hc with h | h
        · exact absurd h.symm huc
        · exact h
      have heq : ((c :: visited).contains u) = (visited.contains u) := by
        simp only [List.contains_cons]
        have : (u == c) = false := beq_eq_false_iff_ne.mpr huc
        rw [this, Bool.false_or]
      simp only [List.filter_cons, heq]
      cases h3 : visited.contains u with
      | true =>
        simp only [Bool.not_true, if_false]
        exact ih hcu hnv
      | false =>
        simp only [Bool.not_false, if_true, List.length_cons]
        exact Nat.succ_lt_succ (ih hcu hnv)

/-- If every blocker of a visited node is itself visited and the target `k`
is nowhere a blocker of a visited node, then no visited node has `k` as a
transitive blocker. -/
theorem closedVisited_no_path {edges : EdgeList} {k : String} {visited : List String}
    (hk : ∀ v ∈ visited, ¬ Edge edges k v)
    (hcl : ∀ v ∈ visited, ∀ p ∈ blockersOf edges v, p ∈ visited) :
    ∀ x ∈ visited, ¬ Relation.TransGen (Edge edges) k x := by
  intro x hx hpath
  revert hx
  induction hpath with
  | single h =>
    intro hx
    exact hk _ hx h
  | tail _ hyx ih =>
    intro hx
    exact ih (hcl _ hx _ (mem_blockersOf.mpr hyx))

theorem bfsDetect_sound {edges : EdgeList} {k b : String} :
    ∀ (fuel : Nat) (visited queue : List String),
      (∀ q ∈ queue, Relation.ReflTransGen (Edge edges) q b) →
      bfsDetect edges k fuel visited queue = true →
      IsAncestor edges k b := by
  intro fuel
  induction fuel with
  | zero => intro visited queue _ h; simp [bfsDetect] at h
  | succ fuel ih =>
    intro visited queue hq h
    cases queue with
    | nil => simp [bfsDetect] at h
    | cons current rest =>
      simp only [bfsDetect] at h
      split at h
      · exact ih _ _ (fun q hq' => hq q (List.mem_cons_of_mem _ hq')) h
      · split at h
        next hfound =>
          have hk : (k, current) ∈ edges :=
            mem_blockersOf.mp (List.elem_iff.mp hfound)
          exact Relation.TransGen.head' hk (hq current (List.mem_cons_self _ _))
        next hfound =>
          apply ih _ _ _ h
          intro q hq'
          rcases List.mem_append.mp hq' with h1 | h1
          · exact hq q (List.mem_cons_of_mem _ h1)
          · have hqc : (q, current) ∈ edges :=
              mem_blockersOf.mp (List.mem_filter.mp h1).1
            exact Relation.ReflTransGen.head hqc
              (hq current (List.mem_cons_self _ _))

theorem bfsDetect_complete {edges : EdgeList} {k : String} (univ : List String)
    (huniv : ∀ v p, p ∈ blockersOf edges v → p ∈ univ) :
    ∀ (fuel : Nat) (visited queue : List String),
      queue.length + unvisitedCount univ visited * (edges.length + 1) ≤ fuel →
      (∀ q ∈ queue, q ∈ univ) →
      (∀ v ∈ visited, ¬ Edge edges k v) →
      (∀ v ∈ visited, ∀ p ∈ blockersOf edges v, p ∈ visited ∨ p ∈ queue) →
      bfsDetect edges k fuel visited queue = false →
      ∀ x, (x ∈ queue ∨ x ∈ visited) → ¬ Relation.TransGen (Edge edges) k x := by
  intro fuel
  induction fuel with
  | zero =>
    intro visited queue hfuel _ hk hcl _ x hx
    have hq0 : queue.length = 0 := by omega
    have hqnil : queue = [] := List.eq_nil_of_length_eq_zero hq0
    subst hqnil
    rcases hx with hx | hx
    · simp at hx
    · exact closedVisited_no_path hk
        (fun v hv p hp => (hcl v hv p hp).resolve_right (by simp)) x hx
  | succ fuel ih =>
    intro visited queue hfuel hqU hk hcl hres x hx
    cases queue with
    | nil =>
      rcases hx with hx | hx
      · simp at hx
      · exact closedVisited_no_path hk
          (fun v hv p hp => (hcl v hv p hp).resolve_right (by simp)) x hx
    | cons current rest =>
      simp only [bfsDetect] at hres
      split at hres
      next hv =>
        have hcv : current ∈ visited := List.elem_iff.mp hv
        have hx' : x ∈ rest ∨ x ∈ visited := by
          rcases hx with hx | hx
          · rcases List.mem_cons.mp hx with rfl | hx
            · exact Or.inr hcv
            · exact Or.inl hx
          · exact Or.inr hx
        refine ih visited rest ?_ ?_ hk ?_ hres x hx'
        · simp only [List.length_cons] at hfuel; omega
        · exact fun q hq => hqU q (List.mem_cons_of_mem _ hq)
        · intro v hv' p hp
          rcases hcl v hv' p hp with h1 | h1
          · exact Or.inl h1
          · rcases List.mem_cons.mp h1 with rfl | h1
            · exact Or.inl hcv
            · exact Or.inr h1
      next hv =>
        have hcnv : current ∉ visited := by
          intro hc
          exact hv (List.elem_iff.mpr hc)
        split at hres
        next => exact absurd hres (by simp)
        next hnf =>
          have hkc : ¬ Edge edges k current := by
            intro hc
            exact hnf (List.elem_iff.mpr (mem_blockersOf.mpr hc))
          have hcu : current ∈ univ := hqU current (List.mem_cons_self _ _)
          have hult : unvisitedCount univ (current :: visited) + 1 ≤
              unvisitedCount univ visited :=
            unvisitedCount_lt hcu hcnv
          have hplen : (blockersOf edges current).length ≤ edges.length := by
            unfold blockersOf
            rw [List.length_map]
            exact List.length_filter_le _ _
          have hmain := ih (current :: visited)
            (rest ++ (blockersOf edges current).filter
              (fun p => !(current :: visited).contains p))
            (by
              rw [List.length_append]
              have hflen : ((blockersOf edges current).filter
                  (fun p => !(current :: visited).contains p)).length ≤
                  (blockersOf edges current).length := List.length_filter_le _ _
              have hmul : (unvisitedCount univ (current :: visited) + 1) *
                  (edges.length + 1) ≤
                  unvisitedCount univ visited * (edges.length + 1) :=
                Nat.mul_le_mul_right _ hult
              rw [Nat.succ_mul] at hmul
              simp only [List.length_cons] at hfuel
              omega)
            (by
              intro q hq
              rcases List.mem_append.mp hq with h1 | h1
              · exact hqU q (List.mem_cons_of_mem _ h1)
              · exact huniv current q (List.mem_filter.mp h1).1)
            (by
              intro v hv'
              rcases List.mem_cons.mp hv' with rfl | hv'
              · exact hkc
              · exact hk v hv')
            (by
              intro v hv' p hp
              rcases List.mem_cons.mp hv' with rfl | hv'
              · by_cases hpv : p ∈ (v :: visited)
                · exact Or.inl hpv
                · refine Or.inr (List.mem_append_right _ ?_)
                  refine List.mem_filter.mpr ⟨hp, ?_⟩
                  simp only [Bool.not_eq_true']
                  cases hcp : (v :: visited).contains p with
                  | false => rfl
                  | true => exact absurd (List.elem_iff.mp hcp) hpv
              · rcases hcl v hv' p hp with h1 | h1
                · exact Or.inl (List.mem_cons_of_mem _ h1)
                · rcases List.mem_cons.mp h1 with rfl | h1
                  · exact Or.inl (List.mem_cons_self _ _)
                  · exact Or.inr (List.mem_append_left _ h1))
            hres
          have hx' : (x ∈ rest ++ (blockersOf edges current).filter
              (fun p => !(current :: visited).contains p)) ∨
              x ∈ current :: visited := by
            rcases hx with hx | hx
            · rcases List.mem_cons.mp hx with rfl | hx
              · exact Or.inr (List.mem_cons_self _ _)
              · exact Or.inl (List.mem_append_left _ hx)
            · exact Or.inr (List.mem_cons_of_mem _ hx)
          exact hmain x hx'

theorem validateNoCycle_iff {edges : EdgeList} {b k : String} :
    validateNoCycle edges b k = true ↔ (b = k ∨ IsAncestor edges k b) := by
  unfold validateNoCycle
  rw [Bool.or_eq_true, beq_iff_eq]
  constructor
  · rintro (h | h)
    · exact Or.inl h
    · refine Or.inr (bfsDetect_sound _ _ _ ?_ h)
      intro q hq
      rcases List.mem_singleton.mp hq with rfl
      exact Relation.ReflTransGen.refl
  · rintro (rfl | h)
    · exact Or.inl rfl
    · right
      cases hres : bfsDetect edges k (bfsFuel edges) [] [b] with
      | true => rfl
      | false =>
        exfalso
        have huc : unvisitedCount (b :: edges.map Prod.fst) [] =
            edges.length + 1 := by
          simp [unvisitedCount]
        have hcomp := bfsDetect_complete (k := k) (b :: edges.map Prod.fst)
          (by
            intro v p hp
            exact List.mem_cons_of_mem _
              (List.mem_map.mpr ⟨(p, v), mem_blockersOf.mp hp, rfl⟩))
          (bfsFuel edges) [] [b]
          (by
            rw [huc]
            unfold bfsFuel
            simp only [List.length_singleton]
            nlinarith)
          (by intro q hq; rcases List.mem_singleton.mp hq with rfl; simp)
          (by simp)
          (by simp)
          hres b (Or.inl (List.mem_singleton.mpr rfl))
        exact hcomp h

end MC

namespace MC

theorem reflTransGen_append_single {deps : EdgeList} {A B u v : String}
    (h : Relation.ReflTransGen (Edge (deps ++ [(A, B)])) u v) :
    Relation.ReflTransGen (Edge deps) u v ∨
      (Relation.ReflTransGen (Edge deps) u A ∧
        Relation.ReflTransGen (Edge deps) B v) := by
  induction h using Relation.ReflTransGen.head_induction_on with
  | refl => exact Or.inl Relation.ReflTransGen.refl
  | head hstep _ ih =>
    rcases List.mem_append.mp hstep with hold | hnew
    · rcases ih with h1 | ⟨h1, h2⟩
      · exact Or.inl (Relation.ReflTransGen.head hold h1)
      · exact Or.inr ⟨Relation.ReflTransGen.head hold h1, h2⟩
    · have hpair : (_, _) = (A, B) := List.mem_singleton.mp hnew
      injection hpair with hu hy
      subst hu
      subst hy
      rcases ih with h1 | ⟨_, h2⟩
      · exact Or.inr ⟨Relation.ReflTransGen.refl, h1⟩
      · exact Or.inr ⟨Relation.ReflTransGen.refl, h2⟩

/-- Inserting an edge `A → B` keeps the graph acyclic as long as `A ≠ B` and
`B` is not already a transitive blocker of `A` — exactly the two conditions
`hasCycle` tests. -/
theorem acyclic_insert {deps : EdgeList} {A B : String}
    (hac : Acyclic deps) (hAB : ¬ (A = B ∨ IsAncestor deps B A)) :
    Acyclic (deps ++ [(A, B)]) := by
  push_neg at hAB
  obtain ⟨hne, hanc⟩ := hAB
  intro x hx
  obtain ⟨y, hxy, hyx⟩ := (Relation.TransGen.head'_iff).mp hx
  rcases List.mem_append.mp hxy with hold | hnew
  · rcases reflTransGen_append_single hyx with h1 | ⟨h1, h2⟩
    · exact hac x (Relation.TransGen.head' hold h1)
    · have hxA : Relation.TransGen (Edge deps) x A :=
        Relation.TransGen.head' hold h1
      have hBA : Relation.TransGen (Edge deps) B A :=
        Relation.TransGen.trans_right h2 hxA
      exact hanc hBA
  · have hpair : (_, _) = (A, B) := List.mem_singleton.mp hnew
    injection hpair with hu hy
    subst hu
    subst hy
    rcases reflTransGen_append_single hyx with h1 | ⟨_, h2⟩
    · rcases (Relation.reflTransGen_iff_eq_or_transGen.mp h1) with heq | htg
      · exact hne heq
      · exact hanc htg
    · rcases (Relation.reflTransGen_iff_eq_or_transGen.mp h2) with heq | htg
      · exact hne heq
      · exact hanc htg

end MC

namespace MC

/-- Task lifecycle states (`TaskStatusSchema` in src/types/schemas.ts). -/
inductive TaskStatus
  | pending
  | ready
  | in_progress
  | review
  | completed
  | failed
  | blocked
deriving DecidableEq, Repr

/-- Mission states (`MissionStatusSchema`). -/
inductive MissionStatus
  | active
  | archived
deriving DecidableEq, Repr

/-- A metadata mapping: ordered string keys with opaque JSON-compatible
values (modelled as strings). -/
abbrev Metadata := List (String × String)

/-- A stored metadata column: either a faithful JSON encoding of a mapping
(what `JSON.stringify` produces) or a blob on which `JSON.parse` throws. -/
inductive MetaVal
  | enc (m : Metadata)
  | corrupt (blob : String)
deriving DecidableEq, Repr

/-- The JSON-parse contract: encodings round-trip, corrupt blobs fail. -/
def parseMeta : MetaVal → Option Metadata
  | .enc m => some m
  | .corrupt _ => none

/-- Embeds `MissionStore.safeParse`: a NULL column and an unparseable blob
both give the empty mapping. -/
def safeParse : Option MetaVal → Metadata
  | none => []
  | some v => (parseMeta v).getD []

/-- A row of the `tasks` table (timestamps are opaque ordering keys,
modelled as naturals drawn from the store clock). -/
structure TaskRow where
  id : String
  mission_id : String
  title : String
  description : String
  status : TaskStatus
  priority : Nat
  assignee : Option String
  created_at : Nat
  updated_at : Nat
  acceptance_criteria : Option String
  metadata : Option MetaVal
deriving DecidableEq, Repr

/-- A task as returned by reads: the row with its metadata deserialized. -/
structure Task where
  id : String
  mission_id : String
  title : String
  description : String
  status : TaskStatus
  priority : Nat
  assignee : Option String
  created_at : Nat
  updated_at : Nat
  acceptance_criteria : Option String
  metadata : Metadata
deriving DecidableEq, Repr

/-- Deserialize a row (the `{...task, metadata: safeParse(...)}` spread). -/
def decodeRow (r : TaskRow) : Task :=
  { id := r.id, mission_id := r.mission_id, title := r.title,
    description := r.description, status := r.status, priority := r.priority,
    assignee := r.assignee, created_at := r.created_at,
    updated_at := r.updated_at, acceptance_criteria := r.acceptance_criteria,
    metadata := safeParse r.metadata }

/-- A row of the `missions` table. -/
structure Mission where
  id : String
  title : String
  status : MissionStatus
  created_at : Nat
deriving DecidableEq, Repr

/-- A row of the `dependencies` table: `blocker_id → blocked_id`. -/
structure Dep where
  blocker_id : String
  blocked_id : String
  mission_id : String
deriving DecidableEq, Repr

/-- The whole durable state, plus a clock supplying fresh timestamps. -/
structure StoreState where
  missions : List Mission
  tasks : List TaskRow
  deps : List Dep
  clock : Nat
deriving DecidableEq, Repr

/-- The engine's error taxonomy (src/types/errors.ts), extended with the
storage layer's uniqueness-constraint error (a raw SQLite error in the
source, not part of the taxonomy). -/
inductive MCError
  | missionNotFound (id : String)
  | taskNotFound (id : String)
  | invalidOperation (msg : String)
  | cycleDetected (msg : String)
  | taskLocked (taskId : String) (owner : String)
  | validationError (msg : String)
  | uniqueViolation (tbl : String)
deriving DecidableEq, Repr

/-- The dependency table viewed as an edge list. -/
def depEdges (s : StoreState) : EdgeList :=
  s.deps.map (fun d => (d.blocker_id, d.blocked_id))

namespace MissionStore

/-- Embeds `MissionStore.getMission`. -/
def getMission (s : StoreState) (id : String) : Option Mission :=
  s.missions.find? (fun m => m.id == id)

/-- Row lookup for `SELECT * FROM tasks WHERE id = ?`. -/
def getTaskRow (s : StoreState) (id : String) : Option TaskRow :=
  s.tasks.find? (fun t => t.id == id)

/-- Embeds `MissionStore.getTask`: row lookup, then `safeParse` of the
metadata column. -/
def getTask (s : StoreState) (id : String) : Option Task :=
  (getTaskRow s id).map decodeRow

/-- Embeds `MissionStore.createMission`; the INSERT's primary-key
constraint becomes a `uniqueViolation` error. -/
def createMission (s : StoreState) (m : Mission) :
    Except MCError Unit × StoreState :=
  if s.missions.any (fun m0 => m0.id == m.id) then
    (.error (.uniqueViolation "missions"), s)
  else (.ok (), { s with missions := s.missions ++ [m] })

/-- Embeds `MissionStore.createTask`; the INSERT's primary-key constraint
becomes a `uniqueViolation` error. -/
def createTask (s : StoreState) (t : TaskRow) :
    Except MCError Unit × StoreState :=
  if s.tasks.any (fun t0 => t0.id == t.id) then
    (.error (.uniqueViolation "tasks"), s)
  else (.ok (), { s with tasks := s.tasks ++ [t] })

/-- Embeds `MissionStore.updateTaskStatus`: `UPDATE tasks SET status,
assignee, updated_at, metadata = COALESCE($metadata, metadata) WHERE id`. -/
def updateTaskStatus (s : StoreState) (id : String) (status : TaskStatus)
    (assignee : Option String) (metadata : Option MetaVal) : StoreState :=
  { s with
    tasks := s.tasks.map (fun r =>
      if r.id == id then
        { r with
          status := status,
          assignee := assignee,
          updated_at := s.clock,
          metadata := (match metadata with
            | some v => some v
            | none => r.metadata) }
      else r),
    clock := s.clock + 1 }

/-- Embeds `MissionStore.addDependency`; the composite primary key
`(blocker_id, blocked_id)` becomes a `uniqueViolation` error. -/
def addDependency (s : StoreState) (d : Dep) :
    Except MCError Unit × StoreState :=
  if s.deps.any (fun d0 => d0.blocker_id == d.blocker_id &&
      d0.blocked_id == d.blocked_id) then
    (.error (.uniqueViolation "dependencies"), s)
  else (.ok (), { s with deps := s.deps ++ [d] })

/-- Embeds `MissionStore.getDependencies`: ids of the direct blockers of
`taskId`. -/
def getDependencies (s : StoreState) (taskId : String) : List String :=
  (s.deps.filter (fun d => d.blocked_id == taskId)).map (fun d => d.blocker_id)

/-- Embeds `MissionStore.hasCycle` over the store's dependency table. -/
def hasCycle (s : StoreState) (blockerId blockedId : String) : Bool :=
  MC.hasCycle (depEdges s) blockerId blockedId

/-- The `ORDER BY priority ASC, created_at ASC` comparator. -/
def rowLE (x y : TaskRow) : Bool :=
  decide (x.priority < y.priority) ||
    (x.priority == y.priority && decide (x.created_at ≤ y.created_at))

/-- Embeds `MissionStore.getReadyTasks`: mission-scoped pending tasks with
no non-completed blocker (the SQL `NOT EXISTS` with its join on `tasks`),
ordered by ascending priority then ascending `created_at`, capped at
`limit`. -/
def getReadyTasks (s : StoreState) (missionId : String) (limit : Nat) :
    List Task :=
  let rows := s.tasks.filter (fun t =>
    t.mission_id == missionId && decide (t.status = .pending) &&
    !(s.deps.any (fun d => d.blocked_id == t.id &&
        s.tasks.any (fun b => b.id == d.blocker_id &&
          decide (b.status ≠ .completed)))))
  let sorted := rows.mergeSort rowLE
  (sorted.take limit).map decodeRow

/-- Embeds `MissionStore.getTasksByMission`. -/
def getTasksByMission (s : StoreState) (missionId : String) : List Task :=
  (s.tasks.filter (fun t => t.mission_id == missionId)).map decodeRow

/-- Embeds `MissionStore.runTransaction`: the callback's writes are kept on
success; on a thrown error all of them are rolled back and the error
propagates unchanged. -/
def runTransaction {α : Type} (s : StoreState)
    (f : StoreState → Except MCError α × StoreState) :
    Except MCError α × StoreState :=
  match f s with
  | (.error e, _) => (.error e, s)
  | (.ok a, s') => (.ok a, s')

end MissionStore

end MC

namespace MC

/-- JavaScript object-spread update `{...m, k: v}` on an ordered mapping:
replaces the value at `k` in place when present, otherwise appends. -/
def setKey (m : Metadata) (k v : String) : Metadata :=
  if m.any (fun p => p.1 == k) then
    m.map (fun p => if p.1 == k then (k, v) else p)
  else m ++ [(k, v)]

/-- The mission record `MissionManager.createMission` constructs. -/
def newMission (id title : String) (now : Nat) : Mission :=
  { id := id, title := title, status := .active, created_at := now }

/-- The task row `MissionManager.createTask` constructs. -/
def newTaskRow (tid missionId title description : String) (priority : Nat)
    (acceptanceCriteria : Option String) (now : Nat) : TaskRow :=
  { id := tid, mission_id := missionId, title := title,
    description := description, status := .pending, priority := priority,
    assignee := none, created_at := now, updated_at := now,
    acceptance_criteria := acceptanceCriteria, metadata := some (.enc []) }

namespace MissionManager

/-- Embeds `MissionManager.createMission`: duplicate check, then insert of
an `active` mission stamped with the current clock. -/
def createMission (s : StoreState) (id title : String) :
    Except MCError Mission × StoreState :=
  match MissionStore.getMission s id with
  | some _ =>
    (.error (.invalidOperation ("Mission " ++ id ++ " already exists")), s)
  | none =>
    let m : Mission := newMission id title s.clock
    match MissionStore.createMission s m with
    | (.error e, s') => (.error e, s')
    | (.ok _, s') => (.ok m, { s' with clock := s'.clock + 1 })

/-- Embeds `MissionManager.createTask`. Fresh-id generation
(`generateSmartId`) is an external collaborator, so the fresh id is the
parameter `tid`; `CreateTaskInputSchema.parse` becomes the priority range
check (a thrown `ZodError` is modelled as `validationError`). -/
def createTask (s : StoreState) (tid missionId title description : String)
    (priority : Nat) (acceptanceCriteria : Option String) :
    Except MCError Task × StoreState :=
  if priority > 4 then (.error (.validationError "priority"), s)
  else
    match MissionStore.getMission s missionId with
    | none => (.error (.missionNotFound missionId), s)
    | some _ =>
      let row : TaskRow := newTaskRow tid missionId title description
        priority acceptanceCriteria s.clock
      match MissionStore.createTask s row with
      | (.error e, s') => (.error e, s')
      | (.ok _, s') => (.ok (decodeRow row), { s' with clock := s'.clock + 1 })

/-- Embeds `MissionManager.linkTasks` — one transaction: look up both
endpoints, reject cross-mission pairs, run `hasCycle`, then insert. -/
def linkTasks (s : StoreState) (blockerId blockedId : String) :
    Except MCError Unit × StoreState :=
  MissionStore.runTransaction s (fun s0 =>
    match MissionStore.getTask s0 blockerId with
    | none => (.error (.taskNotFound blockerId), s0)
    | some blocker =>
      match MissionStore.getTask s0 blockedId with
      | none => (.error (.taskNotFound blockedId), s0)
      | some blocked =>
        if blocker.mission_id ≠ blocked.mission_id then
          (.error (.invalidOperation
            ("Cannot link tasks from different missions: " ++
              blocker.mission_id ++ " vs " ++ blocked.mission_id)), s0)
        else if MissionStore.hasCycle s0 blockerId blockedId then
          (.error (.cycleDetected
            ("Cycle detected: Task " ++ blockedId ++
              " is already a dependency of " ++ blockerId)), s0)
        else
          MissionStore.addDependency s0
            { blocker_id := blockerId, blocked_id := blockedId,
              mission_id := blocker.mission_id })

/-- Embeds `MissionManager.claimTask` — one transaction: lookup, blocker
scan (blockers with no task row are skipped, as in the source's
`if (blocker && ...)`), lock check (JavaScript truthiness: an empty-string
assignee is falsy and skips the lock), completed check, claiming update. -/
def claimTask (s : StoreState) (taskId agentId : String) :
    Except MCError Task × StoreState :=
  MissionStore.runTransaction s (fun s0 =>
    match MissionStore.getTask s0 taskId with
    | none => (.error (.taskNotFound taskId), s0)
    | some task =>
      match (MissionStore.getDependencies s0 taskId).find? (fun blockerId =>
          match MissionStore.getTask s0 blockerId with
          | some blocker => decide (blocker.status ≠ .completed)
          | none => false) with
      | some blockerId =>
        (.error (.invalidOperation
          ("Task " ++ taskId ++ " is blocked by " ++ blockerId)), s0)
      | none =>
        if task.assignee.getD "" ≠ "" ∧ task.assignee ≠ some agentId then
          (.error (.taskLocked taskId (task.assignee.getD "")), s0)
        else if task.status = .completed then
          (.error (.invalidOperation
            ("Task " ++ taskId ++ " is already completed")), s0)
        else
          let s1 := MissionStore.updateTaskStatus s0 taskId .in_progress
            (some agentId) none
          match MissionStore.getTask s1 taskId with
          | some t' => (.ok t', s1)
          | none => (.error (.taskNotFound taskId), s1))

/-- Embeds `MissionManager.updateTaskStatus`: clears the assignee when the
new status is `pending` or `ready`; merges `resultSummary` under the
`result_summary` key only when it is truthy (the source's
`if (resultSummary)`, so `none` and the falsy empty string skip the
merge); persists and re-reads the task. -/
def updateTaskStatus (s : StoreState) (taskId : String) (status : TaskStatus)
    (resultSummary : Option String) : Except MCError Task × StoreState :=
  match MissionStore.getTask s taskId with
  | none => (.error (.taskNotFound taskId), s)
  | some task =>
    let targetAssignee :=
      if status = .pending ∨ status = .ready then none else task.assignee
    let metadataString : Option MetaVal :=
      match resultSummary with
      | some v =>
        if v = "" then none
        else some (.enc (setKey task.metadata "result_summary" v))
      | none => none
    let s1 := MissionStore.updateTaskStatus s taskId status targetAssignee
      metadataString
    match MissionStore.getTask s1 taskId with
    | some t' => (.ok t', s1)
    | none => (.error (.taskNotFound taskId), s1)

/-- Embeds `MissionManager.getReadyTasks` (pass-through). -/
def getReadyTasks (s : StoreState) (missionId : String) (limit : Nat) :
    List Task :=
  MissionStore.getReadyTasks s missionId limit

/-- Embeds `MissionManager.getAllTasks` (pass-through). -/
def getAllTasks (s : StoreState) (missionId : String) : List Task :=
  MissionStore.getTasksByMission s missionId

/-- Embeds `MissionManager.getActiveTasks` (filter on `in_progress`). -/
def getActiveTasks (s : StoreState) (missionId : String) : List Task :=
  (MissionStore.getTasksByMission s missionId).filter
    (fun t => decide (t.status = .in_progress))

/-- Embeds `MissionManager.getDependencies` (pass-through). -/
def getDependencies (s : StoreState) (taskId : String) : List String :=
  MissionStore.getDependencies s taskId

end MissionManager

/-- States reachable from the empty store by orchestrator operations. -/
inductive Reachable : StoreState → Prop
  | init : Reachable { missions := [], tasks := [], deps := [], clock := 0 }
  | createMission {s : StoreState} (id title : String) :
      Reachable s → Reachable (MissionManager.createMission s id title).2
  | createTask {s : StoreState} (tid mid title descr : String) (prio : Nat)
      (ac : Option String) :
      Reachable s →
      Reachable (MissionManager.createTask s tid mid title descr prio ac).2
  | linkTasks {s : StoreState} (a b : String) :
      Reachable s → Reachable (MissionManager.linkTasks s a b).2
  | claimTask {s : StoreState} (tid agent : String) :
      Reachable s → Reachable (MissionManager.claimTask s tid agent).2
  | updateTaskStatus {s : StoreState} (tid : String) (st : TaskStatus)
      (rs : Option String) :
      Reachable s → Reachable (MissionManager.updateTaskStatus s tid st rs).2

end MC

namespace MC

/-- Task primary key: ids in the `tasks` table are pairwise distinct. -/
def TasksNodup (s : StoreState) : Prop := (s.tasks.map (fun r => r.id)).Nodup

/-- Foreign keys of `dependencies`: both endpoints reference task rows. -/
def DepsFK (s : StoreState) : Prop :=
  ∀ d ∈ s.deps, (∃ b ∈ s.tasks, b.id = d.blocker_id) ∧
    (∃ b ∈ s.tasks, b.id = d.blocked_id)

/-- Composite primary key of `dependencies`: at most one row per ordered
pair `(blocker_id, blocked_id)`. -/
def DepsPK (s : StoreState) : Prop :=
  s.deps.Pairwise (fun d1 d2 =>
    ¬(d1.blocker_id = d2.blocker_id ∧ d1.blocked_id = d2.blocked_id))

/-- A task row with a non-null assignee is never `pending` or `ready`. -/
def AssigneeInv (s : StoreState) : Prop :=
  ∀ r ∈ s.tasks, r.assignee ≠ none →
    r.status ≠ TaskStatus.pending ∧ r.status ≠ TaskStatus.ready

/-- The inductive invariant maintained by the orchestrator operations. -/
def Invariant (s : StoreState) : Prop :=
  TasksNodup s ∧ DepsFK s ∧ DepsPK s ∧ Acyclic (depEdges s) ∧ AssigneeInv s

theorem updateTaskStatus_deps (s : StoreState) (id : String) (st : TaskStatus)
    (asg : Option String) (md : Option MetaVal) :
    (MissionStore.updateTaskStatus s id st asg md).deps = s.deps := rfl

theorem updateTaskStatus_ids (s : StoreState) (id : String) (st : TaskStatus)
    (asg : Option String) (md : Option MetaVal) :
    (MissionStore.updateTaskStatus s id st asg md).tasks.map (fun r => r.id) =
      s.tasks.map (fun r => r.id) := by
  unfold MissionStore.updateTaskStatus
  simp only [List.map_map]
  apply List.map_congr_left
  intro r _
  simp only [Function.comp_apply]
  split <;> rfl

theorem invariant_updateStore {s : StoreState} (h : Invariant s) (id : String)
    (st : TaskStatus) (asg : Option String) (md : Option MetaVal)
    (hcond : asg ≠ none → st ≠ TaskStatus.pending ∧ st ≠ TaskStatus.ready) :
    Invariant (MissionStore.updateTaskStatus s id st asg md) := by
  obtain ⟨hnd, hfk, hpk, hac, hai⟩ := h
  refine ⟨?_, ?_, ?_, ?_, ?_⟩
  · unfold TasksNodup
    rw [updateTaskStatus_ids]
    exact hnd
  · intro d hd
    have hd' : d ∈ s.deps := by rwa [updateTaskStatus_deps] at hd
    obtain ⟨⟨b1, hb1, hid1⟩, ⟨b2, hb2, hid2⟩⟩ := hfk d hd'
    have h1 : d.blocker_id ∈
        (MissionStore.updateTaskStatus s id st asg md).tasks.map
          (fun r => r.id) := by
      rw [updateTaskStatus_ids]
      exact List.mem_map.mpr ⟨b1, hb1, hid1⟩
    have h2 : d.blocked_id ∈
        (MissionStore.updateTaskStatus s id st asg md).tasks.map
          (fun r => r.id) := by
      rw [updateTaskStatus_ids]
      exact List.mem_map.mpr ⟨b2, hb2, hid2⟩
    obtain ⟨c1, hc1, hcid1⟩ := List.mem_map.mp h1
    obtain ⟨c2, hc2, hcid2⟩ := List.mem_map.mp h2
    exact ⟨⟨c1, hc1, hcid1⟩, ⟨c2, hc2, hcid2⟩⟩
  · unfold DepsPK
    rw [updateTaskStatus_deps]
    exact hpk
  · unfold depEdges
    rw [updateTaskStatus_deps]
    exact hac
  · intro r hr
    obtain ⟨r0, hr0, hmap⟩ := List.mem_map.mp hr
    subst hmap
    split
    · intro hasg
      exact hcond hasg
    · exact hai r0 hr0

theorem invariant_clock {s : StoreState} (h : Invariant s) (n : Nat) :
    Invariant { s with clock := n } := h

theorem invariant_addMission {s : StoreState} (h : Invariant s) (m : Mission) :
    Invariant (MissionStore.createMission s m).2 := by
  unfold MissionStore.createMission
  split
  · exact h
  · exact h

theorem invariant_addTask {s : StoreState} (h : Invariant s) (t : TaskRow)
    (hasg : t.assignee = none) :
    Invariant (MissionStore.createTask s t).2 := by
  obtain ⟨hnd, hfk, hpk, hac, hai⟩ := h
  unfold MissionStore.createTask
  split
  next => exact ⟨hnd, hfk, hpk, hac, hai⟩
  next hdup =>
    refine ⟨?_, ?_, hpk, hac, ?_⟩
    · unfold TasksNodup
      simp only [List.map_append, List.map_cons, List.map_nil]
      rw [List.nodup_append]
      refine ⟨hnd, List.nodup_singleton _, ?_⟩
      intro x hx hx'
      rcases List.mem_singleton.mp hx' with rfl
      obtain ⟨r, hr, hrid⟩ := List.mem_map.mp hx
      exact hdup (List.any_eq_true.mpr ⟨r, hr, beq_iff_eq.mpr hrid⟩)
    · intro d hd
      obtain ⟨⟨b1, hb1, hid1⟩, ⟨b2, hb2, hid2⟩⟩ := hfk d hd
      exact ⟨⟨b1, List.mem_append_left _ hb1, hid1⟩,
        ⟨b2, List.mem_append_left _ hb2, hid2⟩⟩
    · intro r hr
      rcases List.mem_append.mp hr with hr | hr
      · exact hai r hr
      · rcases List.mem_singleton.mp hr with rfl
        intro hna
        exact absurd hasg hna

end MC

namespace MC

theorem getTask_row {s : StoreState} {id : String} {t : Task}
    (h : MissionStore.getTask s id = some t) :
    ∃ r ∈ s.tasks, r.id = id ∧ decodeRow r = t := by
  unfold MissionStore.getTask MissionStore.getTaskRow at h
  cases hf : s.tasks.find? (fun r => r.id == id) with
  | none => rw [hf] at h; simp at h
  | some r =>
    rw [hf] at h
    simp only [Option.map_some'] at h
    have hm := List.mem_of_find?_eq_some hf
    have hp := List.find?_some hf
    have hd : decodeRow r = t := by injection h
    exact ⟨r, hm, beq_iff_eq.mp hp, hd⟩

theorem runTransaction_invariant {α : Type} {s : StoreState}
    (f : StoreState → Except MCError α × StoreState) (h : Invariant s)
    (hf : ∀ res s', f s = (.ok res, s') → Invariant s') :
    Invariant (MissionStore.runTransaction s f).2 := by
  unfold MissionStore.runTransaction
  rcases hfs : f s with ⟨r, s'⟩
  cases r with
  | error e => exact h
  | ok v => exact hf v s' hfs

theorem invariant_appendDep {s : StoreState} (h : Invariant s) (d : Dep)
    (hfkA : ∃ r ∈ s.tasks, r.id = d.blocker_id)
    (hfkB : ∃ r ∈ s.tasks, r.id = d.blocked_id)
    (hnocyc : ¬ (d.blocker_id = d.blocked_id ∨
      IsAncestor (depEdges s) d.blocked_id d.blocker_id))
    (hdup : ∀ d0 ∈ s.deps,
      ¬(d0.blocker_id = d.blocker_id ∧ d0.blocked_id = d.blocked_id)) :
    Invariant { s with deps := s.deps ++ [d] } := by
  obtain ⟨hnd, hfk, hpk, hac, hai⟩ := h
  refine ⟨hnd, ?_, ?_, ?_, hai⟩
  · intro d0 hd0
    rcases List.mem_append.mp hd0 with hd0 | hd0
    · exact hfk d0 hd0
    · rcases List.mem_singleton.mp hd0 with rfl
      exact ⟨hfkA, hfkB⟩
  · unfold DepsPK
    rw [List.pairwise_append]
    refine ⟨hpk, List.pairwise_singleton _ _, ?_⟩
    intro d0 hd0 d1 hd1
    rcases List.mem_singleton.mp hd1 with rfl
    exact hdup d0 hd0
  · unfold depEdges
    simp only [List.map_append, List.map_cons, List.map_nil]
    exact acyclic_insert hac hnocyc

theorem invariant_createMission {s : StoreState} (h : Invariant s)
    (id title : String) :
    Invariant (MissionManager.createMission s id title).2 := by
  unfold MissionManager.createMission
  rcases hm : MissionStore.getMission s id with _ | m
  · rcases hc : MissionStore.createMission s (newMission id title s.clock)
      with ⟨r, s'⟩
    have hinv : Invariant s' := by
      have h2 := invariant_addMission h (newMission id title s.clock)
      rwa [hc] at h2
    cases r with
    | error e => simp only [hm, hc]; exact hinv
    | ok u => simp only [hm, hc]; exact invariant_clock hinv _
  · simp only [hm]; exact h

theorem invariant_createTask {s : StoreState} (h : Invariant s)
    (tid mid title descr : String) (prio : Nat) (ac : Option String) :
    Invariant (MissionManager.createTask s tid mid title descr prio ac).2 := by
  unfold MissionManager.createTask
  split
  · exact h
  · rcases hm : MissionStore.getMission s mid with _ | m
    · simp only [hm]; exact h
    · rcases hc : MissionStore.createTask s
        (newTaskRow tid mid title descr prio ac s.clock) with ⟨r, s'⟩
      have hinv : Invariant s' := by
        have h2 := invariant_addTask h
          (newTaskRow tid mid title descr prio ac s.clock) rfl
        rwa [hc] at h2
      cases r with
      | error e => simp only [hm, hc]; exact hinv
      | ok u => simp only [hm, hc]; exact invariant_clock hinv _

theorem invariant_linkTasks {s : StoreState} (h : Invariant s)
    (a b : String) :
    Invariant (MissionManager.linkTasks s a b).2 := by
  unfold MissionManager.linkTasks
  apply runTransaction_invariant _ h
  intro res s' heq
  split at heq
  · simp at heq
  next tA hA =>
    split at heq
    · simp at heq
    next tB hB =>
      split at heq
      · simp at heq
      next hm =>
        split at heq
        · simp at heq
        next hcyc =>
          unfold MissionStore.addDependency at heq
          split at heq
          · simp at heq
          next hdup =>
            simp only [Prod.mk.injEq] at heq
            obtain ⟨-, hs'⟩ := heq
            subst hs'
            obtain ⟨rA, hrA, hidA, -⟩ := getTask_row hA
            obtain ⟨rB, hrB, hidB, -⟩ := getTask_row hB
            apply invariant_appendDep h
            · exact ⟨rA, hrA, hidA⟩
            · exact ⟨rB, hrB, hidB⟩
            · intro hor
              exact hcyc (hasCycle_iff.mpr hor)
            · intro d0 hd0 hmatch
              apply hdup
              refine List.any_eq_true.mpr ⟨d0, hd0, ?_⟩
              rw [hmatch.1, hmatch.2]
              simp

theorem invariant_claimTask {s : StoreState} (h : Invariant s)
    (tid agent : String) :
    Invariant (MissionManager.claimTask s tid agent).2 := by
  unfold MissionManager.claimTask
  apply runTransaction_invariant _ h
  intro res s' heq
  split at heq
  · simp at heq
  next task hT =>
    split at heq
    next bid hF => simp at heq
    next hF =>
      split at heq
      · simp at heq
      next hlock =>
        split at heq
        · simp at heq
        next hcomp =>
          simp only [] at heq
          split at heq
          next t' hG =>
            simp only [Prod.mk.injEq] at heq
            obtain ⟨-, hs'⟩ := heq
            subst hs'
            exact invariant_updateStore h tid .in_progress (some agent) none
              (fun _ => ⟨by simp, by simp⟩)
          next hG => simp at heq

theorem invariant_updateTaskStatus {s : StoreState} (h : Invariant s)
    (tid : String) (st : TaskStatus) (rs : Option String) :
    Invariant (MissionManager.updateTaskStatus s tid st rs).2 := by
  unfold MissionManager.updateTaskStatus
  rcases hT : MissionStore.getTask s tid with _ | task
  · simp only [hT]; exact h
  · simp only [hT]
    have hcond : (if st = TaskStatus.pending ∨ st = TaskStatus.ready
        then none else task.assignee) ≠ none →
        st ≠ TaskStatus.pending ∧ st ≠ TaskStatus.ready := by
      intro hne
      by_cases hst : st = TaskStatus.pending ∨ st = TaskStatus.ready
      · rw [if_pos hst] at hne; exact absurd rfl hne
      · push_neg at hst; exact hst
    have hupd := invariant_updateStore h tid st
      (if st = TaskStatus.pending ∨ st = TaskStatus.ready
        then none else task.assignee)
      (match rs with
        | some v =>
          if v = "" then none
          else some (.enc (setKey task.metadata "result_summary" v))
        | none => none) hcond
    split
    · exact hupd
    · exact hupd

theorem invariant_init :
    Invariant { missions := [], tasks := [], deps := [], clock := 0 } := by
  refine ⟨List.nodup_nil, ?_, List.Pairwise.nil, ?_, ?_⟩
  · intro d hd; exact absurd hd (List.not_mem_nil d)
  · intro x hx
    obtain ⟨y, hy, -⟩ := (Relation.TransGen.head'_iff).mp hx
    exact absurd hy (List.not_mem_nil _)
  · intro r hr; exact absurd hr (List.not_mem_nil r)

/-- Every reachable state satisfies the inductive invariant: unique task
ids, dependency foreign keys, the composite dependency primary key, an
acyclic dependency relation, and the assignee/status discipline. -/
theorem reachable_invariant {s : StoreState} (h : Reachable s) :
    Invariant s := by
  induction h with
  | init => exact invariant_init
  | createMission id title _ ih => exact invariant_createMission ih id title
  | createTask tid mid title descr prio ac _ ih =>
    exact invariant_createTask ih tid mid title descr prio ac
  | linkTasks a b _ ih => exact invariant_linkTasks ih a b
  | claimTask tid agent _ ih => exact invariant_claimTask ih tid agent
  | updateTaskStatus tid st rs _ ih =>
    exact invariant_updateTaskStatus ih tid st rs

end MC

namespace MC

theorem runTransaction_err {α : Type} (s : StoreState)
    (f : StoreState → Except MCError α × StoreState) {e : MCError}
    {s' : StoreState} (hfs : f s = (.error e, s')) :
    MissionStore.runTransaction s f = (.error e, s) := by
  unfold MissionStore.runTransaction
  rw [hfs]

theorem runTransaction_okk {α : Type} (s : StoreState)
    (f : StoreState → Except MCError α × StoreState) {v : α}
    {s' : StoreState} (hfs : f s = (.ok v, s')) :
    MissionStore.runTransaction s f = (.ok v, s') := by
  unfold MissionStore.runTransaction
  rw [hfs]

theorem find?_map_id_preserving {l : List TaskRow} {tid : String} {r : TaskRow}
    (f : TaskRow → TaskRow) (hid : ∀ t, (f t).id = t.id)
    (h : l.find? (fun t => t.id == tid) = some r) :
    (l.map f).find? (fun t => t.id == tid) = some (f r) := by
  induction l with
  | nil => simp at h
  | cons x xs ih =>
    by_cases hx : (x.id == tid) = true
    · rw [List.find?_cons_of_pos (p := fun t => t.id == tid) xs hx] at h
      have hxr : x = r := by injection h
      subst hxr
      rw [List.map_cons, List.find?_cons_of_pos (p := fun t => t.id == tid)
        (xs.map f) (show ((f x).id == tid) = true by rw [hid]; exact hx)]
    · rw [List.find?_cons_of_neg (p := fun t => t.id == tid) xs hx] at h
      rw [List.map_cons, List.find?_cons_of_neg (p := fun t => t.id == tid)
        (xs.map f) (show ¬((f x).id == tid) = true by rw [hid]; exact hx)]
      exact ih h

theorem getTaskRow_updateTaskStatus {s : StoreState} {tid : String}
    {r : TaskRow} (h : MissionStore.getTaskRow s tid = some r)
    (st : TaskStatus) (asg : Option String) (md : Option MetaVal) :
    MissionStore.getTaskRow
      (MissionStore.updateTaskStatus s tid st asg md) tid =
      some { r with
        status := st,
        assignee := asg,
        updated_at := s.clock,
        metadata := (match md with | some v => some v | none => r.metadata) } := by
  unfold MissionStore.getTaskRow at h
  have hr := List.find?_some h
  unfold MissionStore.getTaskRow MissionStore.updateTaskStatus
  have hmap := find?_map_id_preserving
    (f := fun r0 => if r0.id == tid then
      { r0 with
        status := st,
        assignee := asg,
        updated_at := s.clock,
        metadata := (match md with | some v => some v | none => r0.metadata) }
      else r0)
    (by
      intro t
      simp only []
      by_cases ht : (t.id == tid) = true
      · rw [if_pos ht]
      · rw [if_neg ht]) h
  rw [hmap]
  simp only []
  rw [if_pos hr]

theorem getTask_updateTaskStatus {s : StoreState} {tid : String}
    {r : TaskRow} (h : MissionStore.getTaskRow s tid = some r)
    (st : TaskStatus) (asg : Option String) (md : Option MetaVal) :
    MissionStore.getTask
      (MissionStore.updateTaskStatus s tid st asg md) tid =
      some (decodeRow { r with
        status := st,
        assignee := asg,
        updated_at := s.clock,
        metadata := (match md with | some v => some v | none => r.metadata) }) := by
  unfold MissionStore.getTask
  rw [getTaskRow_updateTaskStatus h st asg md]
  rfl

/-- The claim's blocking condition: some existing direct blocker of `tid`
has a status other than `completed`. -/
def BlockedCond (s : StoreState) (tid : String) : Prop :=
  ∃ bid ∈ MissionStore.getDependencies s tid,
    ∃ blocker, MissionStore.getTask s bid = some blocker ∧
      blocker.status ≠ TaskStatus.completed

instance (s : StoreState) (tid : String) : Decidable (BlockedCond s tid) := by
  unfold BlockedCond
  infer_instance

theorem blocker_find_isSome_iff {s : StoreState} {tid : String} :
    ((MissionStore.getDependencies s tid).find? (fun blockerId =>
      match MissionStore.getTask s blockerId with
      | some blocker => decide (blocker.status ≠ TaskStatus.completed)
      | none => false)).isSome = true ↔ BlockedCond s tid := by
  rw [List.find?_isSome]
  unfold BlockedCond
  constructor
  · rintro ⟨bid, hmem, hp⟩
    refine ⟨bid, hmem, ?_⟩
    cases hg : MissionStore.getTask s bid with
    | none => rw [hg] at hp; simp at hp
    | some blocker =>
      rw [hg] at hp
      simp only [decide_eq_true_eq] at hp
      exact ⟨blocker, rfl, hp⟩
  · rintro ⟨bid, hmem, blocker, hg, hne⟩
    refine ⟨bid, hmem, ?_⟩
    rw [hg]
    simpa using hne

theorem row_unique {s : StoreState} (htn : TasksNodup s) {b1 b2 : TaskRow}
    (h1 : b1 ∈ s.tasks) (h2 : b2 ∈ s.tasks) (hid : b1.id = b2.id) :
    b1 = b2 :=
  List.inj_on_of_nodup_map htn h1 h2 hid

theorem lookup_map_setKey_ne {v : String} {k q : String} (hq : q ≠ k) :
    ∀ (m : Metadata),
      (m.map (fun p => if p.1 == k then (k, v) else p)).lookup q =
        m.lookup q := by
  intro m
  induction m with
  | nil => rfl
  | cons p ps ih =>
    by_cases hp : (p.1 == k) = true
    · have hp' : p.1 = k := beq_iff_eq.mp hp
      rw [List.map_cons, if_pos hp]
      have hqk : (q == k) = false := beq_eq_false_iff_ne.mpr hq
      have hqp : (q == p.1) = false := by rw [hp']; exact hqk
      simp only [List.lookup, hqk, hqp]
      exact ih
    · rw [List.map_cons, if_neg hp]
      by_cases hqp : (q == p.1) = true
      · simp only [List.lookup, hqp]
      · simp only [List.lookup, Bool.not_eq_true] at hqp
        simp only [List.lookup, hqp]
        exact ih

theorem lookup_map_setKey_self {v : String} {k : String} :
    ∀ (m : Metadata), (m.any (fun p => p.1 == k)) = true →
      (m.map (fun p => if p.1 == k then (k, v) else p)).lookup k =
        some v := by
  intro m
  induction m with
  | nil => intro h; simp at h
  | cons p ps ih =>
    intro hany
    by_cases hp : (p.1 == k) = true
    · rw [List.map_cons, if_pos hp]
      simp [List.lookup]
    · rw [List.map_cons, if_neg hp]
      have hany' : (ps.any (fun p => p.1 == k)) = true := by
        rw [List.any_cons] at hany
        rcases Bool.or_eq_true_iff.mp hany with h | h
        · exact absurd h hp
        · exact h
      have hkp : (k == p.1) = false := by
        rw [beq_eq_false_iff_ne]
        intro hc
        exact hp (beq_iff_eq.mpr hc.symm)
      simp only [List.lookup, hkp]
      exact ih hany'

theorem lookup_append_right_none {q : String} :
    ∀ (m : Metadata) (tail : Metadata), m.lookup q = none →
      (m ++ tail).lookup q = tail.lookup q := by
  intro m
  induction m with
  | nil => intro tail _; rfl
  | cons p ps ih =>
    intro tail hnone
    by_cases hqp : (q == p.1) = true
    · simp only [List.lookup, hqp] at hnone
      exact absurd hnone (by simp)
    · simp only [Bool.not_eq_true] at hqp
      simp only [List.cons_append, List.lookup, hqp] at hnone ⊢
      exact ih tail hnone

theorem lookup_append_left {q : String} :
    ∀ (m : Metadata) (tail : Metadata) {w : String}, m.lookup q = some w →
      (m ++ tail).lookup q = some w := by
  intro m
  induction m with
  | nil => intro tail w h; simp [List.lookup] at h
  | cons p ps ih =>
    intro tail w h
    by_cases hqp : (q == p.1) = true
    · simp only [List.lookup, hqp] at h ⊢
      exact h
    · simp only [Bool.not_eq_true] at hqp
      simp only [List.cons_append, List.lookup, hqp] at h ⊢
      exact ih tail h

theorem any_key_false_lookup_none {k : String} :
    ∀ (m : Metadata), (m.any (fun p => p.1 == k)) = false →
      m.lookup k = none := by
  intro m
  induction m with
  | nil => intro _; rfl
  | cons p ps ih =>
    intro hany
    rw [List.any_cons] at hany
    have h1 : (p.1 == k) = false := by
      cases h : (p.1 == k) with
      | false => rfl
      | true => rw [h] at hany; simp at hany
    have h2 : (ps.any (fun p => p.1 == k)) = false := by
      cases h : (ps.any (fun p => p.1 == k)) with
      | false => rfl
      | true => rw [h] at hany; simp at hany
    have hkp : (k == p.1) = false := by
      rw [beq_eq_false_iff_ne]
      intro hc
      rw [beq_eq_false_iff_ne] at h1
      exact h1 hc.symm
    simp only [List.lookup, hkp]
    exact ih h2

theorem lookup_setKey_self (m : Metadata) (k v : String) :
    (setKey m k v).lookup k = some v := by
  unfold setKey
  split
  next hany => exact lookup_map_setKey_self m hany
  next hany =>
    have hnone : m.lookup k = none := by
      apply any_key_false_lookup_none
      cases h : m.any (fun p => p.1 == k) with
      | false => rfl
      | true => exact absurd h hany
    rw [lookup_append_right_none m _ hnone]
    simp [List.lookup]

theorem lookup_setKey_ne (m : Metadata) (k v q : String) (hq : q ≠ k) :
    (setKey m k v).lookup q = m.lookup q := by
  unfold setKey
  split
  next => exact lookup_map_setKey_ne hq m
  next =>
    cases hm : m.lookup q with
    | some w => exact lookup_append_left m _ hm
    | none =>
      rw [lookup_append_right_none m _ hm]
      have hqk : (q == k) = false := beq_eq_false_iff_ne.mpr hq
      simp [List.lookup, hqk]

end MC

namespace MC

theorem rowLE_trans (a b c : TaskRow) (hab : MissionStore.rowLE a b = true)
    (hbc : MissionStore.rowLE b c = true) : MissionStore.rowLE a c = true := by
  unfold MissionStore.rowLE at hab hbc ⊢
  simp only [Bool.or_eq_true, Bool.and_eq_true, decide_eq_true_eq,
    beq_iff_eq] at hab hbc ⊢
  omega

theorem rowLE_total (a b : TaskRow) : (MissionStore.rowLE a b || MissionStore.rowLE b a) = true := by
  unfold MissionStore.rowLE
  simp only [Bool.or_eq_true, Bool.and_eq_true, decide_eq_true_eq,
    beq_iff_eq]
  omega

theorem readyPred_blockers_iff {s : StoreState} (htn : TasksNodup s)
    (hfk : DepsFK s) (t : TaskRow) :
    (s.deps.any (fun d => d.blocked_id == t.id &&
      s.tasks.any (fun b => b.id == d.blocker_id &&
        decide (b.status ≠ TaskStatus.completed)))) = false ↔
    (∀ bid ∈ MissionStore.getDependencies s t.id,
      ∃ b ∈ s.tasks, b.id = bid ∧ b.status = TaskStatus.completed) := by
  constructor
  · intro hno bid hbid
    unfold MissionStore.getDependencies at hbid
    obtain ⟨d, hdmem, hdid⟩ := List.mem_map.mp hbid
    have hdt : (d.blocked_id == t.id) = true :=
      List.of_mem_filter (p := fun (d : Dep) => d.blocked_id == t.id) hdmem
    have hdmem' : d ∈ s.deps := List.mem_of_mem_filter hdmem
    obtain ⟨⟨bb, hbb, hbbid⟩, -⟩ := hfk d hdmem'
    refine ⟨bb, hbb, by rw [hbbid, hdid], ?_⟩
    by_contra hbc
    have hany : (s.deps.any (fun d => d.blocked_id == t.id &&
        s.tasks.any (fun b => b.id == d.blocker_id &&
          decide (b.status ≠ TaskStatus.completed)))) = true := by
      refine List.any_eq_true.mpr ⟨d, hdmem', ?_⟩
      rw [Bool.and_eq_true]
      refine ⟨hdt, List.any_eq_true.mpr ⟨bb, hbb, ?_⟩⟩
      rw [Bool.and_eq_true, beq_iff_eq, decide_eq_true_eq]
      exact ⟨hbbid, hbc⟩
    rw [hany] at hno
    exact absurd hno (by simp)
  · intro hok
    cases hany : (s.deps.any (fun d => d.blocked_id == t.id &&
        s.tasks.any (fun b => b.id == d.blocker_id &&
          decide (b.status ≠ TaskStatus.completed)))) with
    | false => rfl
    | true =>
      exfalso
      obtain ⟨d, hdmem, hdp⟩ := List.any_eq_true.mp hany
      rw [Bool.and_eq_true] at hdp
      obtain ⟨hdt, hex⟩ := hdp
      obtain ⟨b2, hb2, hb2p⟩ := List.any_eq_true.mp hex
      rw [Bool.and_eq_true, beq_iff_eq, decide_eq_true_eq] at hb2p
      obtain ⟨hb2id, hb2ne⟩ := hb2p
      have hbid : d.blocker_id ∈ MissionStore.getDependencies s t.id := by
        unfold MissionStore.getDependencies
        exact List.mem_map.mpr ⟨d, List.mem_filter.mpr ⟨hdmem, hdt⟩, rfl⟩
      obtain ⟨b, hb, hbid', hbc⟩ := hok d.blocker_id hbid
      have hbb : b = b2 := row_unique htn hb hb2 (by rw [hbid', hb2id])
      subst hbb
      exact hb2ne hbc

/-- C5: `GetReadyTasks(M, L)` returns exactly the `pending` tasks of mission
`M` all of whose direct blockers are `completed` (zero blockers qualifies),
ordered by ascending priority with ties broken by ascending `created_at`,
truncated to at most `L` results: the result is the `L`-prefix of the
sorted list `full` of exactly those tasks, and is itself sorted and of
length at most `L`. -/
theorem getReadyTasks_spec (s : StoreState) (htn : TasksNodup s)
    (hfk : DepsFK s) (M : String) (L : Nat) :
    ∃ full : List TaskRow,
      MissionStore.getReadyTasks s M L = (full.take L).map decodeRow ∧
      (∀ t : TaskRow, t ∈ full ↔ (t ∈ s.tasks ∧ t.mission_id = M ∧
        t.status = TaskStatus.pending ∧
        ∀ bid ∈ MissionStore.getDependencies s t.id,
          ∃ b ∈ s.tasks, b.id = bid ∧ b.status = TaskStatus.completed)) ∧
      full.Pairwise (fun x y => x.priority < y.priority ∨
        (x.priority = y.priority ∧ x.created_at ≤ y.created_at)) ∧
      (MissionStore.getReadyTasks s M L).Pairwise (fun x y =>
        x.priority < y.priority ∨
        (x.priority = y.priority ∧ x.created_at ≤ y.created_at)) ∧
      (MissionStore.getReadyTasks s M L).length ≤ L := by
  refine ⟨(s.tasks.filter (fun (t : TaskRow) =>
    t.mission_id == M && decide (t.status = TaskStatus.pending) &&
    !(s.deps.any (fun d => d.blocked_id == t.id &&
        s.tasks.any (fun b => b.id == d.blocker_id &&
          decide (b.status ≠ TaskStatus.completed)))))).mergeSort MissionStore.rowLE,
    rfl, ?_, ?_, ?_, ?_⟩
  · intro t
    rw [List.mem_mergeSort, List.mem_filter]
    rw [Bool.and_eq_true, Bool.and_eq_true, beq_iff_eq, decide_eq_true_eq,
      Bool.not_eq_true']
    rw [readyPred_blockers_iff htn hfk t]
    constructor
    · rintro ⟨hmem, ⟨⟨h1, h2⟩, h3⟩⟩
      exact ⟨hmem, h1, h2, h3⟩
    · rintro ⟨hmem, h1, h2, h3⟩
      exact ⟨hmem, ⟨⟨h1, h2⟩, h3⟩⟩
  · have hs := List.sorted_mergeSort rowLE_trans rowLE_total
      (s.tasks.filter (fun t =>
        t.mission_id == M && decide (t.status = TaskStatus.pending) &&
        !(s.deps.any (fun d => d.blocked_id == t.id &&
            s.tasks.any (fun b => b.id == d.blocker_id &&
              decide (b.status ≠ TaskStatus.completed))))))
    refine hs.imp ?_
    intro x y hxy
    unfold MissionStore.rowLE at hxy
    simp only [Bool.or_eq_true, Bool.and_eq_true, decide_eq_true_eq,
      beq_iff_eq] at hxy
    exact hxy
  · have hs := List.sorted_mergeSort rowLE_trans rowLE_total
      (s.tasks.filter (fun t =>
        t.mission_id == M && decide (t.status = TaskStatus.pending) &&
        !(s.deps.any (fun d => d.blocked_id == t.id &&
            s.tasks.any (fun b => b.id == d.blocker_id &&
              decide (b.status ≠ TaskStatus.completed))))))
    have hsorted := hs.sublist (List.take_sublist L _)
    unfold MissionStore.getReadyTasks
    rw [List.pairwise_map]
    refine hsorted.imp ?_
    intro x y hxy
    unfold MissionStore.rowLE at hxy
    simp only [Bool.or_eq_true, Bool.and_eq_true, decide_eq_true_eq,
      beq_iff_eq] at hxy
    exact hxy
  · unfold MissionStore.getReadyTasks
    rw [List.length_map]
    exact List.length_take_le _ _

end MC

namespace MC

/-- The empty store. -/
def stInit : StoreState := { missions := [], tasks := [], deps := [], clock := 0 }

/-- After `CreateMission("m", "Mission")`. -/
def stM : StoreState := (MissionManager.createMission stInit "m" "Mission").2

/-- After `CreateTask` of `t1` in mission `m`. -/
def stT1 : StoreState := (MissionManager.createTask stM "t1" "m" "A" "" 2 none).2

/-- After `CreateTask` of `t2` in mission `m`. -/
def stT2 : StoreState := (MissionManager.createTask stT1 "t2" "m" "B" "" 2 none).2

/-- After `LinkTasks(t1, t2)`: `t1` blocks `t2`. -/
def stLink : StoreState := (MissionManager.linkTasks stT2 "t1" "t2").2

/-- After `ClaimTask(t1, "ag")`. -/
def stClaim : StoreState := (MissionManager.claimTask stLink "t1" "ag").2

/-- After `UpdateTaskStatus(t1, completed)`. -/
def stDone : StoreState :=
  (MissionManager.updateTaskStatus stClaim "t1" .completed none).2

theorem reach_stM : Reachable stM :=
  Reachable.createMission "m" "Mission" Reachable.init

theorem reach_stT1 : Reachable stT1 :=
  Reachable.createTask "t1" "m" "A" "" 2 none reach_stM

theorem reach_stT2 : Reachable stT2 :=
  Reachable.createTask "t2" "m" "B" "" 2 none reach_stT1

theorem reach_stLink : Reachable stLink :=
  Reachable.linkTasks "t1" "t2" reach_stT2

theorem reach_stClaim : Reachable stClaim :=
  Reachable.claimTask "t1" "ag" reach_stLink

theorem reach_stDone : Reachable stDone :=
  Reachable.updateTaskStatus "t1" .completed none reach_stClaim

/-- C4: on every finite acyclic dependency relation and every pair
`(blocker, blocked)`, the recursive-closure query `hasCycle` and the
in-memory BFS `validateNoCycle` (throws modelled as `true`) agree, and
both report a cycle exactly when `blocker = blocked` or `blocked` is a
transitive blocker (ancestor) of `blocker`. -/
theorem hasCycle_agrees_validateNoCycle (edges : EdgeList) (b k : String)
    (_hacyc : Acyclic edges) :
    (hasCycle edges b k = validateNoCycle edges b k) ∧
    (hasCycle edges b k = true ↔ (b = k ∨ IsAncestor edges k b)) ∧
    (validateNoCycle edges b k = true ↔ (b = k ∨ IsAncestor edges k b)) :=
  ⟨Bool.eq_iff_iff.mpr (hasCycle_iff.trans validateNoCycle_iff.symm),
    hasCycle_iff, validateNoCycle_iff⟩

theorem hasCycle_agrees_validateNoCycle_witness :
    Acyclic [("a", "b"), ("b", "c")] ∧
    hasCycle [("a", "b"), ("b", "c")] "c" "a" =
      validateNoCycle [("a", "b"), ("b", "c")] "c" "a" ∧
    hasCycle [("a", "b"), ("b", "c")] "c" "a" = true := by
  have hac : Acyclic [("a", "b"), ("b", "c")] :=
    acyclicCheck_iff.mp (by decide)
  refine ⟨hac,
    (hasCycle_agrees_validateNoCycle [("a", "b"), ("b", "c")] "c" "a" hac).1,
    by decide⟩

/-- C6: when the stored metadata of a task row fails to deserialize,
`getTask` does not fail: it returns the task with an empty metadata
mapping and every other field taken unchanged from the row. -/
theorem getTask_corrupt_metadata (s : StoreState) (tid : String)
    (r : TaskRow) (hfind : MissionStore.getTaskRow s tid = some r)
    (blob : String) (hcor : r.metadata = some (.corrupt blob)) :
    MissionStore.getTask s tid = some
      { id := r.id, mission_id := r.mission_id, title := r.title,
        description := r.description, status := r.status,
        priority := r.priority, assignee := r.assignee,
        created_at := r.created_at, updated_at := r.updated_at,
        acceptance_criteria := r.acceptance_criteria, metadata := [] } := by
  unfold MissionStore.getTask
  rw [hfind]
  simp only [Option.map_some']
  unfold decodeRow
  rw [hcor]
  rfl

/-- A task row whose metadata column is a corrupt blob. -/
def rowCorrupt : TaskRow :=
  { id := "tc", mission_id := "m", title := "T", description := "d",
    status := .pending, priority := 2, assignee := none, created_at := 0,
    updated_at := 0, acceptance_criteria := none,
    metadata := some (.corrupt "not json") }

/-- A store holding one task row whose metadata column is a corrupt blob. -/
def stCorrupt : StoreState :=
  { missions := [{ id := "m", title := "M", status := .active, created_at := 0 }],
    tasks := [rowCorrupt], deps := [], clock := 1 }

theorem getTask_corrupt_metadata_witness :
    MissionStore.getTask stCorrupt "tc" = some
      { id := "tc", mission_id := "m", title := "T", description := "d",
        status := .pending, priority := 2, assignee := none, created_at := 0,
        updated_at := 0, acceptance_criteria := none, metadata := [] } :=
  getTask_corrupt_metadata stCorrupt "tc" rowCorrupt (by decide) "not json" rfl

/-- C7 counterexample: on the empty store, `LinkTasks(x, x)` for a
nonexistent task `x` fails with `TaskNotFound`, not `CycleDetected`,
refuting "for any X, including when X does not exist as a task". -/
theorem linkTasks_selfLoop_cex :
    MissionManager.linkTasks stInit "x" "x" =
      (.error (.taskNotFound "x"), stInit) ∧
    ∀ m, (MissionManager.linkTasks stInit "x" "x").1 ≠
      .error (.cycleDetected m) := by
  refine ⟨rfl, ?_⟩
  intro m hcon
  rw [show (MissionManager.linkTasks stInit "x" "x").1 =
    .error (.taskNotFound "x") from rfl] at hcon
  simp at hcon

/-- C7 (amended): for every EXISTING task `X`, `LinkTasks(X, X)` fails with
`CycleDetected` — even with an empty dependency relation — and the store,
hence the dependency relation, is unchanged; a nonexistent `X` instead
fails with `TaskNotFound`. -/
theorem linkTasks_selfLoop (s : StoreState) (X : String) (t : Task)
    (h : MissionStore.getTask s X = some t) :
    MissionManager.linkTasks s X X =
      (.error (.cycleDetected ("Cycle detected: Task " ++ X ++
        " is already a dependency of " ++ X)), s) := by
  unfold MissionManager.linkTasks
  apply runTransaction_err
  have hcyc : MissionStore.hasCycle s X X = true := by
    unfold MissionStore.hasCycle hasCycle
    simp
  simp only [h]
  rw [if_neg (fun hc : t.mission_id ≠ t.mission_id => hc rfl), if_pos hcyc]

theorem linkTasks_selfLoop_witness :
    MissionManager.linkTasks stT1 "t1" "t1" =
      (.error (.cycleDetected ("Cycle detected: Task " ++ "t1" ++
        " is already a dependency of " ++ "t1")), stT1) :=
  linkTasks_selfLoop stT1 "t1" _ rfl

/-- C1: (i) every reachable dependency relation is acyclic (self-loops
included); (ii) whenever `A` and `B` exist in the same mission and adding
the edge `A → B` would close a cycle, `LinkTasks(A, B)` fails with
`CycleDetected` and the store — in particular the dependency relation —
is unchanged. -/
theorem linkTasks_acyclicity :
    (∀ s : StoreState, Reachable s → Acyclic (depEdges s)) ∧
    (∀ (s : StoreState) (a b : String) (tA tB : Task), Reachable s →
      MissionStore.getTask s a = some tA →
      MissionStore.getTask s b = some tB →
      tA.mission_id = tB.mission_id →
      ¬ Acyclic (depEdges s ++ [(a, b)]) →
      ∃ m, MissionManager.linkTasks s a b =
        (.error (.cycleDetected m), s)) := by
  constructor
  · intro s hreach
    exact (reachable_invariant hreach).2.2.2.1
  · intro s a b tA tB hreach hA hB hmis hnot
    have hac : Acyclic (depEdges s) := (reachable_invariant hreach).2.2.2.1
    have hor : a = b ∨ IsAncestor (depEdges s) b a := by
      by_contra hcon
      exact hnot (acyclic_insert hac hcon)
    have hcyc : MissionStore.hasCycle s a b = true := hasCycle_iff.mpr hor
    refine ⟨"Cycle detected: Task " ++ b ++ " is already a dependency of "
      ++ a, ?_⟩
    unfold MissionManager.linkTasks
    apply runTransaction_err
    simp only [hA, hB]
    rw [if_neg (fun hc : tA.mission_id ≠ tB.mission_id => hc hmis),
      if_pos hcyc]

theorem linkTasks_acyclicity_witness :
    Acyclic (depEdges stLink) ∧
    ∃ m, MissionManager.linkTasks stLink "t2" "t1" =
      (.error (.cycleDetected m), stLink) := by
  refine ⟨linkTasks_acyclicity.1 stLink reach_stLink, ?_⟩
  refine linkTasks_acyclicity.2 stLink "t2" "t1" _ _ reach_stLink rfl rfl rfl ?_
  intro hac
  exact hac "t1" (Relation.TransGen.head (b := "t2") (by decide)
    (Relation.TransGen.single (by decide)))

end MC

namespace MC

/-- C2 (amended): the full decision chain of `ClaimTask(tid, a)`:
`TaskNotFound` iff the task is missing; else `InvalidOperation` ("blocked
by") iff some existing direct blocker is not `completed`; else `TaskLocked`
(carrying the task id and owner) iff the assignee is non-null, *non-empty*
(JavaScript truthiness at `if (task.assignee && ...)`) and different from
`a`; else `InvalidOperation` iff the status is already `completed`; else
success, atomically setting `status = in_progress`, `assignee = a` and
returning the updated task. Every failure leaves the store — in
particular the task — unchanged; re-claiming an `in_progress` task by its
current assignee falls in the success case. -/
theorem claimTask_spec (s : StoreState) (tid a : String) :
    (MissionStore.getTask s tid = none →
      MissionManager.claimTask s tid a = (.error (.taskNotFound tid), s)) ∧
    (∀ t, MissionStore.getTask s tid = some t →
      (BlockedCond s tid →
        ∃ bid, MissionManager.claimTask s tid a =
          (.error (.invalidOperation
            ("Task " ++ tid ++ " is blocked by " ++ bid)), s)) ∧
      (¬ BlockedCond s tid →
        (∀ owner, t.assignee = some owner → owner ≠ "" → owner ≠ a →
          MissionManager.claimTask s tid a =
            (.error (.taskLocked tid owner), s)) ∧
        ((t.assignee = none ∨ t.assignee = some "" ∨ t.assignee = some a) →
          (t.status = TaskStatus.completed →
            MissionManager.claimTask s tid a =
              (.error (.invalidOperation
                ("Task " ++ tid ++ " is already completed")), s)) ∧
          (t.status ≠ TaskStatus.completed →
            ∃ t', MissionManager.claimTask s tid a =
                (.ok t', MissionStore.updateTaskStatus s tid
                  TaskStatus.in_progress (some a) none) ∧
              t'.status = TaskStatus.in_progress ∧
              t'.assignee = some a ∧
              MissionStore.getTask (MissionStore.updateTaskStatus s tid
                TaskStatus.in_progress (some a) none) tid = some t')))) := by
  constructor
  · intro hnone
    unfold MissionManager.claimTask
    apply runTransaction_err
    simp only [hnone]
    rfl
  · intro t hT
    constructor
    · intro hbl
      have hsome := blocker_find_isSome_iff.mpr hbl
      obtain ⟨bid, hfind⟩ := Option.isSome_iff_exists.mp hsome
      refine ⟨bid, ?_⟩
      unfold MissionManager.claimTask
      apply runTransaction_err
      simp only [hT, hfind]
      rfl
    · intro hnbl
      have hfind : (MissionStore.getDependencies s tid).find?
          (fun blockerId =>
            match MissionStore.getTask s blockerId with
            | some blocker => decide (blocker.status ≠ TaskStatus.completed)
            | none => false) = none := by
        rw [← Option.not_isSome_iff_eq_none]
        intro hs
        exact hnbl (blocker_find_isSome_iff.mp hs)
      constructor
      · intro owner howner hne hnea
        have hlock : t.assignee.getD "" ≠ "" ∧ t.assignee ≠ some a := by
          rw [howner]
          refine ⟨hne, ?_⟩
          intro hc
          exact hnea (by injection hc)
        unfold MissionManager.claimTask
        apply runTransaction_err
        simp only [hT, hfind]
        rw [if_pos hlock, howner]
        rfl
      · intro hasg
        have hnl : ¬(t.assignee.getD "" ≠ "" ∧ t.assignee ≠ some a) := by
          rcases hasg with h | h | h <;> rw [h] <;> simp
        constructor
        · intro hcomp
          unfold MissionManager.claimTask
          apply runTransaction_err
          simp only [hT, hfind]
          rw [if_neg hnl, if_pos hcomp]
        · intro hncomp
          have hT2 := hT
          unfold MissionStore.getTask at hT2
          obtain ⟨r, hrow, hdec⟩ := Option.map_eq_some'.mp hT2
          have hupd := getTask_updateTaskStatus hrow TaskStatus.in_progress
            (some a) none
          refine ⟨decodeRow { r with
            status := TaskStatus.in_progress,
            assignee := some a,
            updated_at := s.clock,
            metadata := (match (none : Option MetaVal) with
              | some v => some v
              | none => r.metadata) }, ?_, rfl, rfl, hupd⟩
          unfold MissionManager.claimTask
          apply runTransaction_okk
          simp only [hT, hfind]
          rw [if_neg hnl, if_neg hncomp]
          simp only [hupd]

theorem claimTask_spec_witness :
    MissionManager.claimTask stClaim "t1" "other" =
      (.error (.taskLocked "t1" "ag"), stClaim) :=
  ((((claimTask_spec stClaim "t1" "other").2 _ rfl).2 (by decide)).1 "ag" rfl
    (by decide) (by decide))

/-- After `ClaimTask(t1, "")`: the task is held by the empty-string agent. -/
def stEmptyClaim : StoreState := (MissionManager.claimTask stLink "t1" "").2

/-- The decoded `t1` row of `stEmptyClaim`. -/
def tEmptyOwner : Task :=
  { id := "t1", mission_id := "m", title := "A", description := "",
    status := .in_progress, priority := 2, assignee := some "",
    created_at := 1, updated_at := 3, acceptance_criteria := none,
    metadata := [] }

/-- The task returned when "thief" steals the empty-string-owned task. -/
def tThief : Task :=
  { id := "t1", mission_id := "m", title := "A", description := "",
    status := .in_progress, priority := 2, assignee := some "thief",
    created_at := 1, updated_at := 4, acceptance_criteria := none,
    metadata := [] }

/-- C2 counterexample: `t1` has the non-null assignee `some ""` (reachable
via `ClaimTask(t1, "")`), which differs from agent `"thief"`; the claim
predicts `TaskLocked`, but the claim by `"thief"` succeeds, because the
source's `if (task.assignee && ...)` treats the empty string as falsy. -/
theorem claimTask_spec_cex :
    Reachable stEmptyClaim ∧
    MissionStore.getTask stEmptyClaim "t1" = some tEmptyOwner ∧
    tEmptyOwner.assignee = some "" ∧
    some "" ≠ some "thief" ∧
    (MissionManager.claimTask stEmptyClaim "t1" "thief").1 = .ok tThief := by
  refine ⟨Reachable.claimTask "t1" "" reach_stLink, by decide, rfl,
    by decide, rfl⟩

/-- C8 (amended): in every reachable state, a task whose assignee is
non-null has a status other than `pending` and other than `ready` (it can
be `in_progress`, but also `review`, `completed`, `failed` or `blocked`:
only resets to `pending`/`ready` clear the assignee). -/
theorem assignee_nonnull_not_claimable (s : StoreState) (h : Reachable s) :
    ∀ r ∈ s.tasks, r.assignee ≠ none →
      r.status ≠ TaskStatus.pending ∧ r.status ≠ TaskStatus.ready :=
  fun r hr hna => (reachable_invariant h).2.2.2.2 r hr hna

/-- The `t1` row of `stDone`: completed with its assignee kept. -/
def rowDone : TaskRow :=
  { id := "t1", mission_id := "m", title := "A", description := "",
    status := .completed, priority := 2, assignee := some "ag",
    created_at := 1, updated_at := 4, acceptance_criteria := none,
    metadata := some (.enc []) }

theorem assignee_nonnull_witness :
    rowDone ∈ stDone.tasks ∧ rowDone.assignee ≠ none ∧
    rowDone.status ≠ TaskStatus.pending ∧
    rowDone.status ≠ TaskStatus.ready := by
  have h := assignee_nonnull_not_claimable stDone reach_stDone rowDone
    (by decide) (by decide)
  exact ⟨by decide, by decide, h.1, h.2⟩

/-- C8 counterexample: after `CreateMission`, `CreateTask`, `ClaimTask` and
`UpdateTaskStatus(completed)`, the reachable state `stDone` holds a task
with a non-null assignee whose status is `completed`, not `in_progress` —
the source keeps the assignee on completion ("keeps the assignee
history"). -/
theorem assignee_c8_cex :
    Reachable stDone ∧ rowDone ∈ stDone.tasks ∧
    rowDone.assignee = some "ag" ∧
    rowDone.status = TaskStatus.completed ∧
    rowDone.status ≠ TaskStatus.in_progress :=
  ⟨reach_stDone, by decide, rfl, rfl, by decide⟩

/-- C9 (amended): `UpdateTaskStatus(tid, status, resultSummary)` leaves the
metadata mapping unchanged when no `resultSummary` is supplied, and when a
*truthy* (non-empty; the source's `if (resultSummary)`) summary `v` is
supplied, the resulting metadata binds `result_summary` to `v` and
preserves every other key; when the new status is `pending` or `ready`,
the assignee is cleared. -/
theorem updateTaskStatus_metadata (s : StoreState) (tid : String) (t : Task)
    (hT : MissionStore.getTask s tid = some t) (st : TaskStatus) :
    (∃ t', MissionManager.updateTaskStatus s tid st none =
        (.ok t', MissionStore.updateTaskStatus s tid st
          (if st = TaskStatus.pending ∨ st = TaskStatus.ready
            then none else t.assignee) none) ∧
      t'.metadata = t.metadata ∧
      ((st = TaskStatus.pending ∨ st = TaskStatus.ready) →
        t'.assignee = none)) ∧
    (∀ v : String, v ≠ "" →
      ∃ t', MissionManager.updateTaskStatus s tid st (some v) =
        (.ok t', MissionStore.updateTaskStatus s tid st
          (if st = TaskStatus.pending ∨ st = TaskStatus.ready
            then none else t.assignee)
          (some (.enc (setKey t.metadata "result_summary" v)))) ∧
      t'.metadata.lookup "result_summary" = some v ∧
      (∀ k, k ≠ "result_summary" →
        t'.metadata.lookup k = t.metadata.lookup k) ∧
      ((st = TaskStatus.pending ∨ st = TaskStatus.ready) →
        t'.assignee = none)) := by
  have hT2 := hT
  unfold MissionStore.getTask at hT2
  obtain ⟨r, hrow, hdec⟩ := Option.map_eq_some'.mp hT2
  constructor
  · have hupd := getTask_updateTaskStatus hrow st
      (if st = TaskStatus.pending ∨ st = TaskStatus.ready then none
        else t.assignee) none
    refine ⟨decodeRow { r with
      status := st,
      assignee := (if st = TaskStatus.pending ∨ st = TaskStatus.ready
        then none else t.assignee),
      updated_at := s.clock,
      metadata := (match (none : Option MetaVal) with
        | some v => some v
        | none => r.metadata) }, ?_, ?_, ?_⟩
    · unfold MissionManager.updateTaskStatus
      simp only [hT]
      simp only [hupd]
    · rw [← hdec]
      rfl
    · intro hst
      show (if st = TaskStatus.pending ∨ st = TaskStatus.ready
        then none else t.assignee) = none
      rw [if_pos hst]
  · intro v hv
    have hupd := getTask_updateTaskStatus hrow st
      (if st = TaskStatus.pending ∨ st = TaskStatus.ready then none
        else t.assignee)
      (some (.enc (setKey t.metadata "result_summary" v)))
    refine ⟨decodeRow { r with
      status := st,
      assignee := (if st = TaskStatus.pending ∨ st = TaskStatus.ready
        then none else t.assignee),
      updated_at := s.clock,
      metadata := (match (some (MetaVal.enc
          (setKey t.metadata "result_summary" v)) : Option MetaVal) with
        | some w => some w
        | none => r.metadata) }, ?_, ?_, ?_, ?_⟩
    · unfold MissionManager.updateTaskStatus
      simp only [hT]
      rw [if_neg hv]
      simp only [hupd]
    · show (setKey t.metadata "result_summary" v).lookup "result_summary"
        = some v
      exact lookup_setKey_self _ _ _
    · intro k hk
      show (setKey t.metadata "result_summary" v).lookup k
        = t.metadata.lookup k
      exact lookup_setKey_ne _ _ _ _ hk
    · intro hst
      show (if st = TaskStatus.pending ∨ st = TaskStatus.ready
        then none else t.assignee) = none
      rw [if_pos hst]

end MC

namespace MC

/-- The decoded `t1` of `stClaim`. -/
def tClaimT1 : Task :=
  { id := "t1", mission_id := "m", title := "A", description := "",
    status := .in_progress, priority := 2, assignee := some "ag",
    created_at := 1, updated_at := 3, acceptance_criteria := none,
    metadata := [] }

theorem updateTaskStatus_metadata_witness :
    ∃ t', MissionManager.updateTaskStatus stClaim "t1" .review
        (some "done") =
      (.ok t', MissionStore.updateTaskStatus stClaim "t1" .review
        (if TaskStatus.review = TaskStatus.pending ∨
            TaskStatus.review = TaskStatus.ready
          then none else tClaimT1.assignee)
        (some (.enc (setKey tClaimT1.metadata "result_summary" "done")))) ∧
      t'.metadata.lookup "result_summary" = some "done" ∧
      (∀ k, k ≠ "result_summary" →
        t'.metadata.lookup k = tClaimT1.metadata.lookup k) ∧
      ((TaskStatus.review = TaskStatus.pending ∨
          TaskStatus.review = TaskStatus.ready) → t'.assignee = none) :=
  (updateTaskStatus_metadata stClaim "t1" tClaimT1 (by decide) .review).2
    "done" (by decide)

/-- The task returned by `UpdateTaskStatus(t1, completed, "")`. -/
def tEmptySummary : Task :=
  { id := "t1", mission_id := "m", title := "A", description := "",
    status := .completed, priority := 2, assignee := some "ag",
    created_at := 1, updated_at := 4, acceptance_criteria := none,
    metadata := [] }

/-- C9 counterexample: supplying the (falsy) empty-string `resultSummary`
does not bind `result_summary` — the source's `if (resultSummary)` skips
the merge — refuting "when resultSummary is supplied the resulting
metadata [binds] result_summary". -/
theorem updateTaskStatus_metadata_cex :
    (MissionManager.updateTaskStatus stClaim "t1" .completed
      (some "")).1 = .ok tEmptySummary ∧
    tEmptySummary.metadata.lookup "result_summary" = none :=
  ⟨rfl, rfl⟩

/-- C10: when the edge `(a, b)` is already present (in a store satisfying
the dependency primary key and acyclicity), a second `LinkTasks(a, b)`
passes the cycle check — it does not fail with `CycleDetected` (nor any
error of the engine's own taxonomy) — and the INSERT hits the composite
primary key `(blocker_id, blocked_id)`, surfacing the storage layer's
uniqueness-constraint error; the transaction rolls back, leaving exactly
one `(a, b)` edge in the relation. -/
theorem linkTasks_duplicate (s : StoreState) (a b : String) (tA tB : Task)
    (hpk : DepsPK s) (hac : Acyclic (depEdges s))
    (hA : MissionStore.getTask s a = some tA)
    (hB : MissionStore.getTask s b = some tB)
    (hm : tA.mission_id = tB.mission_id)
    (hedge : (a, b) ∈ depEdges s) :
    MissionManager.linkTasks s a b =
      (.error (.uniqueViolation "dependencies"), s) ∧
    (∀ m, (MissionManager.linkTasks s a b).1 ≠ .error (.cycleDetected m)) ∧
    (s.deps.filter (fun d => d.blocker_id == a &&
      d.blocked_id == b)).length = 1 := by
  have hne : a ≠ b := by
    rintro rfl
    exact hac a (Relation.TransGen.single hedge)
  have hnanc : ¬ IsAncestor (depEdges s) b a := by
    intro hanc
    exact hac a (Relation.TransGen.head hedge hanc)
  have hcyc : MissionStore.hasCycle s a b = false := by
    cases hc : MissionStore.hasCycle s a b with
    | false => rfl
    | true =>
      rcases hasCycle_iff.mp hc with h | h
      · exact absurd h hne
      · exact absurd h hnanc
  obtain ⟨d, hd, hdp⟩ := List.mem_map.mp hedge
  have hdup : s.deps.any (fun d0 => d0.blocker_id == a &&
      d0.blocked_id == b) = true := by
    refine List.any_eq_true.mpr ⟨d, hd, ?_⟩
    rw [Bool.and_eq_true, beq_iff_eq, beq_iff_eq]
    exact ⟨congrArg Prod.fst hdp, congrArg Prod.snd hdp⟩
  have hmain : MissionManager.linkTasks s a b =
      (.error (.uniqueViolation "dependencies"), s) := by
    unfold MissionManager.linkTasks
    apply runTransaction_err
    simp only [hA, hB]
    rw [if_neg (fun hc : tA.mission_id ≠ tB.mission_id => hc hm)]
    rw [if_neg (show ¬ MissionStore.hasCycle s a b = true by
      rw [hcyc]; simp)]
    unfold MissionStore.addDependency
    rw [if_pos hdup]
  refine ⟨hmain, ?_, ?_⟩
  · intro m hcon
    rw [hmain] at hcon
    simp at hcon
  · have hdmem : d ∈ s.deps.filter (fun d0 => d0.blocker_id == a &&
        d0.blocked_id == b) := by
      rw [List.mem_filter]
      refine ⟨hd, ?_⟩
      rw [Bool.and_eq_true, beq_iff_eq, beq_iff_eq]
      exact ⟨congrArg Prod.fst hdp, congrArg Prod.snd hdp⟩
    have hpw : (s.deps.filter (fun d0 => d0.blocker_id == a &&
        d0.blocked_id == b)).Pairwise (fun d1 d2 =>
        ¬(d1.blocker_id = d2.blocker_id ∧ d1.blocked_id = d2.blocked_id)) :=
      hpk.filter _
    rcases hF : s.deps.filter (fun d0 => d0.blocker_id == a &&
        d0.blocked_id == b) with _ | ⟨x, xs⟩
    · rw [hF] at hdmem
      exact absurd hdmem (List.not_mem_nil d)
    · rcases xs with _ | ⟨y, ys⟩
      · rw [hF]; rfl
      · exfalso
        rw [hF] at hpw
        have hxy := (List.pairwise_cons.mp hpw).1 y
          (List.mem_cons_self _ _)
        have hx : x ∈ s.deps.filter (fun d0 => d0.blocker_id == a &&
            d0.blocked_id == b) := by
          rw [hF]; exact List.mem_cons_self _ _
        have hy : y ∈ s.deps.filter (fun d0 => d0.blocker_id == a &&
            d0.blocked_id == b) := by
          rw [hF]
          exact List.mem_cons_of_mem _ (List.mem_cons_self _ _)
        have hxp := List.of_mem_filter
          (p := fun (d0 : Dep) => d0.blocker_id == a && d0.blocked_id == b) hx
        have hyp := List.of_mem_filter
          (p := fun (d0 : Dep) => d0.blocker_id == a && d0.blocked_id == b) hy
        rw [Bool.and_eq_true, beq_iff_eq, beq_iff_eq] at hxp hyp
        exact hxy ⟨hxp.1.trans hyp.1.symm, hxp.2.trans hyp.2.symm⟩

theorem linkTasks_duplicate_witness :
    MissionManager.linkTasks stLink "t1" "t2" =
      (.error (.uniqueViolation "dependencies"), stLink) ∧
    (stLink.deps.filter (fun d => d.blocker_id == "t1" &&
      d.blocked_id == "t2")).length = 1 := by
  have h := linkTasks_duplicate stLink "t1" "t2" _ _ (by unfold DepsPK; decide)
    (acyclicCheck_iff.mp (by decide)) rfl rfl rfl (by decide)
  exact ⟨h.1, h.2.2⟩

end MC

namespace MC

theorem getReadyTasks_spec_witness :
    TasksNodup stLink ∧ DepsFK stLink ∧
    ∃ full : List TaskRow,
      MissionStore.getReadyTasks stLink "m" 10 =
        (full.take 10).map decodeRow ∧
      (∀ t : TaskRow, t ∈ full ↔ (t ∈ stLink.tasks ∧ t.mission_id = "m" ∧
        t.status = TaskStatus.pending ∧
        ∀ bid ∈ MissionStore.getDependencies stLink t.id,
          ∃ b ∈ stLink.tasks, b.id = bid ∧
            b.status = TaskStatus.completed)) ∧
      full.Pairwise (fun x y => x.priority < y.priority ∨
        (x.priority = y.priority ∧ x.created_at ≤ y.created_at)) ∧
      (MissionStore.getReadyTasks stLink "m" 10).Pairwise (fun x y =>
        x.priority < y.priority ∨
        (x.priority = y.priority ∧ x.created_at ≤ y.created_at)) ∧
      (MissionStore.getReadyTasks stLink "m" 10).length ≤ 10 := by
  have htn : TasksNodup stLink := by unfold TasksNodup; decide
  have hfk : DepsFK stLink := by unfold DepsFK; decide
  exact ⟨htn, hfk, getReadyTasks_spec stLink htn hfk "m" 10⟩

end MC
